import Mathlib

/-!
# A verification development for `mymalloc.c`

The allocator of `src/mymalloc.c` is embedded as pure functions over an explicit
heap state.

* `size_t` values and pointers are natural numbers below `2 ^ 64`; the `size_t`
  operations and pointer additions of the source that can wrap are followed by an
  explicit `% 2 ^ 64`, and the conversions to `int` and `long` are explicit.
* The linked free list (`free_list`, nodes of type `free_list_elm`) is the list
  of its nodes in link order; a node is its address together with its `size`
  field, the `next` field is the tail of the list.  The fields of free nodes live
  in this list only: `extraBlock->size = ...` and the size updates of
  `addFreeList` act on the list.
* Memory as seen by the caller (block headers and payload bytes) is a byte map;
  the header of a block is written to it when the block is handed out (source
  lines 149 and 158) and read from it by `myfree`.
  Where the bytes a recycled block holds matter, the state is required to hold
  the fields of the free nodes in memory as well (`nodesInMem`).
* `mmap` is an oracle: each call of `mymalloc` receives the address the kernel
  would hand out (`none` when the kernel refuses).  Successful calls of `mmap`
  and the calls of `munmap` are recorded in the heap state.  The source never
  tests the result of `mmap`: the store through `MAP_FAILED` that follows a
  failed call is the outcome `fault`.  The `memset` of `mycalloc` faults at the
  first byte it is to write that lies in no mapped region.
* `pthread_mutex_lock` / `pthread_mutex_unlock` and `debug_printf` have no effect
  in this sequential model.
-/

namespace MyMalloc

/-! ## Data model -/

/-- Node of the free list (`struct free_list_elm`): the address of the node and its
`size` field.  The `next` field is represented by the tail of the list. -/
structure free_list_elm where
  addr : Nat
  size : Nat
deriving DecidableEq, Repr

/-- Calls of the memory-mapping primitives, with the value `mmap` returned. -/
inductive Syscall where
  | mmap (len : Nat) (res : Nat)
  | munmap (addr : Nat) (len : Nat)
deriving DecidableEq, Repr

/-- The process state: the global `free_list`, the byte memory and the list of
`mmap` / `munmap` calls made so far (oldest first). -/
structure Heap where
  free_list : List free_list_elm
  mem : Nat → Nat
  calls : List Syscall

/-- Result of a call: it returns a value, or it stores through the invalid pointer
`addr` (a segmentation fault). -/
inductive Outcome (α : Type) where
  | ok (val : α)
  | fault (addr : Nat)

/-- The constant `PAGE_SIZE` of the source (line 30). -/
def PAGE_SIZE : Nat := 4096

/-- The value `MAP_FAILED`, that is `(void *) -1`. -/
def MAP_FAILED : Nat := 2 ^ 64 - 1

/-! ## Machine integers and memory -/

/-- Conversion of a `size_t` to `int` (32 bits, two's complement). -/
def toInt (n : Nat) : Int :=
  if n % 2 ^ 32 < 2 ^ 31 then ((n % 2 ^ 32 : Nat) : Int) else ((n % 2 ^ 32 : Nat) : Int) - 2 ^ 32

/-- Conversion of a `size_t` to `long` (64 bits, two's complement). -/
def toLong (n : Nat) : Int :=
  if n % 2 ^ 64 < 2 ^ 63 then ((n % 2 ^ 64 : Nat) : Int) else ((n % 2 ^ 64 : Nat) : Int) - 2 ^ 64

/-- Conversion of a signed integer to `size_t`. -/
def toSizeT (i : Int) : Nat := (i % 2 ^ 64).toNat

/-- Store of the `size_t` value `v` at address `a` (eight bytes, little endian). -/
def store64 (m : Nat → Nat) (a v : Nat) : Nat → Nat :=
  fun x => if a ≤ x ∧ x < a + 8 then (v / 256 ^ (x - a)) % 256 else m x

/-- Load of a `size_t` value from address `a` (eight bytes, little endian). -/
def load64 (m : Nat → Nat) (a : Nat) : Nat :=
  m a % 256
    + (m (a + 1) % 256) * 256 ^ 1
    + (m (a + 2) % 256) * 256 ^ 2
    + (m (a + 3) % 256) * 256 ^ 3
    + (m (a + 4) % 256) * 256 ^ 4
    + (m (a + 5) % 256) * 256 ^ 5
    + (m (a + 6) % 256) * 256 ^ 6
    + (m (a + 7) % 256) * 256 ^ 7

/-- The library call `memset(p, c, n)`: the `n` bytes from `p` are set to `c`. -/
def memset (m : Nat → Nat) (p c n : Nat) : Nat → Nat :=
  fun x => if p ≤ x ∧ x < p + n then c % 256 else m x

/-- The call `mmap(0, len, ..., MAP_ANONYMOUS | MAP_PRIVATE, -1, 0)`.  The kernel
rejects a length of zero (`EINVAL`); otherwise it returns the address `fresh`
chooses (read as a 64-bit pointer), or `MAP_FAILED`. -/
def sys_mmap (len : Nat) (fresh : Option Nat) : Nat :=
  if len = 0 then MAP_FAILED
  else
    match fresh with
    | some a => a % 2 ^ 64
    | none => MAP_FAILED

/-! ## The functions of `mymalloc.c` -/

/-- Source lines 38-53: walk the list until a node with `size >= s` is found, unlink
it and return it; the second component is the list afterwards. -/
def findFreeSize : List free_list_elm → Nat → Option free_list_elm × List free_list_elm
  | [], _ => (none, [])
  | cur :: rest, s =>
    if cur.size < s then
      ((findFreeSize rest s).1, cur :: (findFreeSize rest s).2)
    else
      (some cur, rest)

/-- Source lines 59-93: insert `toAdd` into the list headed by `start`, merging with
the neighbour whenever the end of the lower block reaches the start of the higher. -/
def addFreeList : List free_list_elm → free_list_elm → List free_list_elm
  | [], toAdd => [toAdd]
  | start :: rest, toAdd =>
    if start.addr < toAdd.addr then
      match addFreeList rest toAdd with
      | [] => [start]
      | nxt :: rest2 =>
        if nxt.addr ≤ (start.addr + start.size) % 2 ^ 64 then
          ⟨start.addr, (start.size + nxt.size) % 2 ^ 64⟩ :: rest2
        else
          start :: nxt :: rest2
    else
      if start.addr ≤ (toAdd.addr + toAdd.size) % 2 ^ 64 then
        ⟨toAdd.addr, (toAdd.size + start.size) % 2 ^ 64⟩ :: rest
      else
        toAdd :: start :: rest

/-- Source lines 97-106.  The product `z * y` is at most `x` and `z + 1` is at most
`x` unless `z * y = x`, so neither wraps. -/
def divide (x y : Nat) : Nat :=
  let z := x / y
  if z * y = x then z else z + 1

/-- Source lines 135-150 of `mymalloc`: split the candidate `memoryBlock` when the
left-over (as a `long`) is not negative, write the header, return the payload
pointer. -/
def carve (st : Heap) (memoryBlock : free_list_elm) (s : Nat) : Nat × Heap :=
  let left_over : Int :=
    toLong ((memoryBlock.size + 2 ^ 64 - (s + 16) % 2 ^ 64) % 2 ^ 64)
  if 0 ≤ left_over then
    let extraBlock : free_list_elm :=
      ⟨(memoryBlock.addr + s) % 2 ^ 64, (memoryBlock.size + 2 ^ 64 - s) % 2 ^ 64⟩
    ((memoryBlock.addr + 8) % 2 ^ 64,
      { free_list := addFreeList st.free_list extraBlock,
        mem := store64 st.mem memoryBlock.addr s,
        calls := st.calls })
  else
    ((memoryBlock.addr + 8) % 2 ^ 64,
      { free_list := st.free_list,
        mem := store64 st.mem memoryBlock.addr memoryBlock.size,
        calls := st.calls })

/-- The effective size computed by source lines 110-114. -/
def effSize (s : Nat) : Nat :=
  if (s + 8) % 2 ^ 64 < 16 then 16 else (s + 8) % 2 ^ 64

/-- The length passed to `mmap` on the large path (source lines 154-157):
`int splitPages = divide(s, PAGE_SIZE)` and then `splitPages * PAGE_SIZE`. -/
def largeLen (e : Nat) : Nat :=
  let splitPages : Int := toInt (divide e PAGE_SIZE)
  (toSizeT splitPages * PAGE_SIZE) % 2 ^ 64

/-- Source lines 109-164.  `fresh` is the address `mmap` returns if it is called. -/
def mymalloc (st : Heap) (s : Nat) (fresh : Option Nat) : Outcome (Nat × Heap) :=
  let s := effSize s
  if s < PAGE_SIZE then
    match findFreeSize st.free_list s with
    | (some memoryBlock, fl) =>
      Outcome.ok (carve { st with free_list := fl } memoryBlock s)
    | (none, fl) =>
      let p := sys_mmap PAGE_SIZE fresh
      if p = MAP_FAILED then Outcome.fault p
      else
        Outcome.ok
          (carve { st with free_list := fl, calls := st.calls ++ [Syscall.mmap PAGE_SIZE p] }
            ⟨p, PAGE_SIZE⟩ s)
  else
    let len := largeLen s
    let block := sys_mmap len fresh
    if block = MAP_FAILED then Outcome.fault block
    else
      Outcome.ok
        ((block + 8) % 2 ^ 64,
          { free_list := st.free_list,
            mem := store64 st.mem block len,
            calls := st.calls ++ [Syscall.mmap len block] })

/-- The byte at `x` lies in the region a successful `mmap` call returned. -/
def inMap (x : Nat) : Syscall → Prop
  | Syscall.mmap len r => r ≤ x ∧ x < r + len
  | Syscall.munmap _ _ => False

instance (x : Nat) (c : Syscall) : Decidable (inMap x c) := by
  cases c <;> unfold inMap <;> exact inferInstance

/-- The byte at `x` lies in some region mapped so far. -/
def mapped (calls : List Syscall) (x : Nat) : Prop := ∃ c ∈ calls, inMap x c

instance (calls : List Syscall) (x : Nat) : Decidable (mapped calls x) := by
  unfold mapped; exact inferInstance

/-- The first of the `n` bytes from `a` that lies in no mapped region, if there is
one: the byte at which `memset(a, c, n)` faults. -/
def firstUnmapped (calls : List Syscall) : Nat → Nat → Option Nat
  | 0, _ => none
  | n + 1, a => if mapped calls a then firstUnmapped calls n (a + 1) else some a

/-- Source lines 167-188.  `memset` (line 177) runs on the pointer before the pointer
is tested (line 180); it faults at the first byte it is to write that lies in no
mapped region, so `memset` through a null pointer or past the mapped memory is a
fault.  The value is `none` when the function leaves through the bare `return;`. -/
def mycalloc (st : Heap) (nmemb s : Nat) (fresh : Option Nat) :
    Outcome (Option Nat × Heap) :=
  let mallocSize := (nmemb * s) % 2 ^ 64
  match mymalloc st mallocSize fresh with
  | Outcome.fault a => Outcome.fault a
  | Outcome.ok (p, st1) =>
    match firstUnmapped st1.calls mallocSize p with
    | some a => Outcome.fault a
    | none =>
      let st2 : Heap := { st1 with mem := memset st1.mem p 0 mallocSize }
      if p = 0 then Outcome.ok (none, st2) else Outcome.ok (some p, st2)

/-- Source lines 191-210. -/
def myfree (st : Heap) (ptr : Nat) : Heap :=
  if ptr = 0 then st
  else
    let freeMe := (ptr + 2 ^ 64 - 8) % 2 ^ 64
    let size := load64 st.mem freeMe
    if size < PAGE_SIZE then
      { st with free_list := addFreeList st.free_list ⟨freeMe, size⟩ }
    else
      { st with calls := st.calls ++ [Syscall.munmap ptr size] }

/-! ## Predicates on blocks and free lists -/

/-- The block lies inside the 64-bit address space: its end address does not wrap. -/
def inSpace (b : free_list_elm) : Prop := b.addr + b.size < 2 ^ 64

instance (b : free_list_elm) : Decidable (inSpace b) := by
  unfold inSpace; exact inferInstance

/-- The byte at address `x` belongs to the block `b`, that is to `[b, b + b.size)`. -/
def inBlock (x : Nat) (b : free_list_elm) : Prop := b.addr ≤ x ∧ x < b.addr + b.size

instance (x : Nat) (b : free_list_elm) : Decidable (inBlock x b) := by
  unfold inBlock; exact inferInstance

/-- The byte ranges of the two blocks have a byte in common. -/
def overlaps (a b : free_list_elm) : Prop :=
  0 < a.size ∧ 0 < b.size ∧ a.addr < b.addr + b.size ∧ b.addr < a.addr + a.size

instance (a b : free_list_elm) : Decidable (overlaps a b) := by
  unfold overlaps; exact inferInstance

/-- The free-list invariant: the end address of each block is strictly below the
start address of the next one (address-sorted, no adjacent and no overlapping pair). -/
def separated : List free_list_elm → Prop
  | [] => True
  | [_] => True
  | a :: b :: rest => a.addr + a.size < b.addr ∧ separated (b :: rest)

/-- Decision procedure for `separated`. -/
def separatedDec : (l : List free_list_elm) → Decidable (separated l)
  | [] => isTrue trivial
  | [_] => isTrue trivial
  | a :: b :: rest =>
    match separatedDec (b :: rest) with
    | isTrue h =>
      if h1 : a.addr + a.size < b.addr then isTrue ⟨h1, h⟩
      else isFalse (fun hh => h1 hh.1)
    | isFalse h => isFalse (fun hh => h hh.2)

instance (l : List free_list_elm) : Decidable (separated l) := separatedDec l

/-- The byte at address `x` belongs to some block of the list. -/
def covers : List free_list_elm → Nat → Prop
  | [], _ => False
  | b :: rest, x => inBlock x b ∨ covers rest x

/-- Decision procedure for `covers`. -/
def coversDec : (l : List free_list_elm) → (x : Nat) → Decidable (covers l x)
  | [], _ => isFalse (fun h => h)
  | b :: rest, x =>
    if h1 : inBlock x b then isTrue (Or.inl h1)
    else
      match coversDec rest x with
      | isTrue h => isTrue (Or.inr h)
      | isFalse h => isFalse (fun hh => hh.elim h1 h)

instance (l : List free_list_elm) (x : Nat) : Decidable (covers l x) := coversDec l x

/-- Sum of the `size` fields of the blocks of a list. -/
def sumSizes : List free_list_elm → Nat
  | [] => 0
  | b :: rest => b.size + sumSizes rest

/-- The fields of every node are machine words. -/
def machineWords (fl : List free_list_elm) : Prop :=
  ∀ b ∈ fl, b.addr < 2 ^ 64 ∧ b.size < 2 ^ 64

/-- The memory holds the nodes of the list the way the program lays them out: the
`size` field at the address of the node, the `next` field (the address of the next
node, null for the last one) eight bytes further, where the payload of the block
begins once it is handed out. -/
def nodesInMem : List free_list_elm → (Nat → Nat) → Prop
  | [], _ => True
  | [b], m => load64 m b.addr = b.size ∧ load64 m (b.addr + 8) = 0
  | b :: c :: rest, m =>
    load64 m b.addr = b.size ∧ load64 m (b.addr + 8) = c.addr ∧ nodesInMem (c :: rest) m

/-- Decision procedure for `nodesInMem`. -/
def nodesInMemDec : (l : List free_list_elm) → (m : Nat → Nat) → Decidable (nodesInMem l m)
  | [], _ => isTrue trivial
  | [b], m =>
    if h : load64 m b.addr = b.size ∧ load64 m (b.addr + 8) = 0 then isTrue h else isFalse h
  | b :: c :: rest, m =>
    match nodesInMemDec (c :: rest) m with
    | isTrue h =>
      if h1 : load64 m b.addr = b.size ∧ load64 m (b.addr + 8) = c.addr then
        isTrue ⟨h1.1, h1.2, h⟩
      else isFalse (fun hh => h1 ⟨hh.1, hh.2.1⟩)
    | isFalse h => isFalse (fun hh => h hh.2.2)

instance (l : List free_list_elm) (m : Nat → Nat) : Decidable (nodesInMem l m) :=
  nodesInMemDec l m

/-! ## Sequences of allocations -/

/-- The payload region of the pointer `p` in the state `st`: from `p` up to the
block start `p - 8` plus the size recorded in the header at `p - 8`. -/
def payloadRegion (st : Heap) (p : Nat) : Nat × Nat :=
  (p, (p + 2 ^ 64 - 8) % 2 ^ 64 + load64 st.mem ((p + 2 ^ 64 - 8) % 2 ^ 64))

/-- A sequence of `mymalloc` calls with no `myfree` in between; each request comes
with the answer `mmap` gives if it is called.  The result lists the payload region
of every returned pointer, in call order. -/
def mallocSeq : Heap → List (Nat × Option Nat) → Outcome (List (Nat × Nat) × Heap)
  | st, [] => Outcome.ok ([], st)
  | st, (s, fresh) :: rest =>
    match mymalloc st s fresh with
    | Outcome.fault a => Outcome.fault a
    | Outcome.ok (p, st1) =>
      match mallocSeq st1 rest with
      | Outcome.fault a => Outcome.fault a
      | Outcome.ok (regions, st2) => Outcome.ok (payloadRegion st1 p :: regions, st2)

/-- The half-open regions `[r1.1, r1.2)` and `[r2.1, r2.2)` have no byte in common. -/
def regionsDisjoint (r1 r2 : Nat × Nat) : Prop :=
  r1.2 ≤ r1.1 ∨ r2.2 ≤ r2.1 ∨ r1.2 ≤ r2.1 ∨ r2.2 ≤ r1.1

instance (r1 r2 : Nat × Nat) : Decidable (regionsDisjoint r1 r2) := by
  unfold regionsDisjoint; exact inferInstance

/-- The region of an `mmap` call lies inside the address space. -/
def mapInSpace : Syscall → Prop
  | Syscall.mmap len r => r + len < 2 ^ 64
  | Syscall.munmap _ _ => True

instance (c : Syscall) : Decidable (mapInSpace c) := by
  cases c <;> unfold mapInSpace <;> exact inferInstance

/-- The regions of two `mmap` calls are disjoint. -/
def mapsApart : Syscall → Syscall → Prop
  | Syscall.mmap l1 r1, Syscall.mmap l2 r2 => r1 + l1 ≤ r2 ∨ r2 + l2 ≤ r1
  | _, _ => True

instance (c1 c2 : Syscall) : Decidable (mapsApart c1 c2) := by
  cases c1 <;> cases c2 <;> unfold mapsApart <;> exact inferInstance

/-- The assumption on the mapping primitive: every region it returned lies in the
address space and is disjoint from all regions it returned before. -/
def freshMaps (calls : List Syscall) : Prop :=
  (∀ c ∈ calls, mapInSpace c) ∧ calls.Pairwise mapsApart

instance (calls : List Syscall) : Decidable (freshMaps calls) := by
  unfold freshMaps; exact inferInstance

/-- The invariant of the heap with the live (handed out) blocks `live`: the free
list is separated, its blocks have at least 16 bytes and lie in the address space,
every byte of a free or live block is mapped, no byte is both free and live, and
the live blocks are pairwise disjoint. -/
structure HeapInv (st : Heap) (live : List free_list_elm) : Prop where
  sep : separated st.free_list
  big : ∀ b ∈ st.free_list, 16 ≤ b.size ∧ inSpace b
  fmap : ∀ x, covers st.free_list x → mapped st.calls x
  lmap : ∀ x, covers live x → mapped st.calls x
  apart : ∀ x, covers live x → ¬ covers st.free_list x
  lsep : live.Pairwise (fun a b => ¬ overlaps a b)

/-! ## Allocation and release -/

/-- The calls a client makes: `mymalloc(s)` (with the answer of `mmap`, should it be
called) and `myfree(p)`. -/
inductive Op where
  | malloc (s : Nat) (fresh : Option Nat)
  | free (p : Nat)

/-- The block of the payload pointer `p`: it starts at `p - 8` and has the size
recorded in the header there. -/
def blockOf (st : Heap) (p : Nat) : free_list_elm :=
  ⟨(p + 2 ^ 64 - 8) % 2 ^ 64, load64 st.mem ((p + 2 ^ 64 - 8) % 2 ^ 64)⟩

/-- A run of the allocator from the heap `st` with the live pointers `live`: every
`mymalloc` call returns and its pointer becomes live, every `myfree` call is on a
live pointer, which stops being live.  The result is `none` for a sequence that is
not of this kind (a faulting `mymalloc`, a release of a pointer that is not live). -/
def runOps : Heap → List Nat → List Op → Option (Heap × List Nat)
  | st, live, [] => some (st, live)
  | st, live, Op.malloc s fresh :: rest =>
    match mymalloc st s fresh with
    | Outcome.ok (p, st1) => runOps st1 (p :: live) rest
    | Outcome.fault _ => none
  | st, live, Op.free p :: rest =>
    if p ∈ live then runOps (myfree st p) (live.erase p) rest else none

/-- The invariant of the heap with the live pointers `live`: `HeapInv` for the
blocks of the live pointers, each of which has a header of at least 16 and lies in
the address space. -/
structure SysInv (st : Heap) (live : List Nat) : Prop where
  heap : HeapInv st (live.map (blockOf st))
  ptr : ∀ p ∈ live, 8 ≤ p ∧ p < 2 ^ 64 ∧ 16 ≤ (blockOf st p).size ∧ inSpace (blockOf st p)


/-! ## Lemmas on blocks and free lists -/

theorem overlaps_iff_common_byte (a b : free_list_elm) :
    overlaps a b ↔ ∃ x, inBlock x a ∧ inBlock x b := by
  unfold overlaps inBlock
  constructor
  · intro h
    by_cases hab : a.addr ≤ b.addr
    · exact ⟨b.addr, by omega⟩
    · exact ⟨a.addr, by omega⟩
  · rintro ⟨x, h1, h2⟩
    omega

theorem separated_tail {a : free_list_elm} {l : List free_list_elm}
    (h : separated (a :: l)) : separated l := by
  cases l with
  | nil => trivial
  | cons b rest => exact h.2

theorem separated_head_swap {a c : free_list_elm} {l : List free_list_elm}
    (h : separated (a :: l)) (hc : c.addr + c.size ≤ a.addr + a.size) :
    separated (c :: l) := by
  cases l with
  | nil => trivial
  | cons b rest =>
    refine ⟨?_, h.2⟩
    have := h.1
    omega

theorem covers_iff_exists (l : List free_list_elm) (x : Nat) :
    covers l x ↔ ∃ b ∈ l, inBlock x b := by
  induction l with
  | nil => simp [covers]
  | cons b rest ih => simp [covers, ih]

theorem addFreeList_behind {start t h : free_list_elm} {rest tl : List free_list_elm}
    (hlt : start.addr < t.addr) (heq : addFreeList rest t = h :: tl) :
    addFreeList (start :: rest) t =
      if h.addr ≤ (start.addr + start.size) % 2 ^ 64 then
        ⟨start.addr, (start.size + h.size) % 2 ^ 64⟩ :: tl
      else start :: h :: tl := by
  rw [addFreeList, if_pos hlt, heq]

theorem addFreeList_front {start t : free_list_elm} {rest : List free_list_elm}
    (hlt : ¬ start.addr < t.addr) :
    addFreeList (start :: rest) t =
      if start.addr ≤ (t.addr + t.size) % 2 ^ 64 then
        ⟨t.addr, (t.size + start.size) % 2 ^ 64⟩ :: rest
      else t :: start :: rest := by
  rw [addFreeList, if_neg hlt]

/-- What one insertion does to a well-formed free list: the invariant, the
positivity and address-space bounds are kept, the covered bytes are those of the
list and of the inserted block, the sizes add up, and the head of the result is
either at the address of the inserted block or the old head. -/
theorem addFreeList_spec (t : free_list_elm) (ht : 0 < t.size) (hts : inSpace t) :
    ∀ fl : List free_list_elm, separated fl →
      (∀ b ∈ fl, 0 < b.size ∧ inSpace b) → (∀ b ∈ fl, ¬ overlaps t b) →
      separated (addFreeList fl t) ∧
      (∀ b ∈ addFreeList fl t, 0 < b.size ∧ inSpace b) ∧
      (∀ x, covers (addFreeList fl t) x ↔ (inBlock x t ∨ covers fl x)) ∧
      sumSizes (addFreeList fl t) = sumSizes fl + t.size ∧
      (∀ k, k ≤ t.size → (∀ b ∈ fl, k ≤ b.size) → ∀ b ∈ addFreeList fl t, k ≤ b.size) ∧
      (∃ h tl, addFreeList fl t = h :: tl ∧
        (h.addr = t.addr ∨ ∃ h0 tl0, fl = h0 :: tl0 ∧ h0.addr < t.addr ∧ h.addr = h0.addr)) := by
  intro fl
  induction fl with
  | nil =>
    intro _ _ _
    refine ⟨trivial, ?_, ?_, ?_, ?_, ⟨t, [], rfl, Or.inl rfl⟩⟩
    · intro b hb
      simp only [addFreeList, List.mem_singleton] at hb
      subst hb
      exact ⟨ht, hts⟩
    · intro x
      simp [addFreeList, covers]
    · simp [addFreeList, sumSizes]
    · intro k hk _ b hb
      simp only [addFreeList, List.mem_singleton] at hb
      subst hb
      exact hk
  | cons start rest ih =>
    intro hsep hpos hno
    have hst := hpos start (List.mem_cons_self _ _)
    have hnst := hno start (List.mem_cons_self _ _)
    have ih1 := ih (separated_tail hsep) (fun b hb => hpos b (List.mem_cons_of_mem _ hb))
      (fun b hb => hno b (List.mem_cons_of_mem _ hb))
    unfold inSpace at hts hst
    unfold overlaps at hnst
    by_cases hlt : start.addr < t.addr
    · -- the inserted block goes behind `start`
      obtain ⟨hs1, hp1, hb1, hsum1, hbig1, h, tl, heq, hhead⟩ := ih1
      have hend : start.addr + start.size ≤ t.addr := by omega
      rw [heq] at hs1 hp1 hb1 hsum1 hbig1
      have hh := hp1 h (List.mem_cons_self _ _)
      unfold inSpace at hh
      by_cases hmerge : h.addr ≤ (start.addr + start.size) % 2 ^ 64
      · -- `start` absorbs the head of the recursive result
        have hha : h.addr = t.addr := by
          rcases hhead with hha | ⟨h0, tl0, hfl, _, hh0⟩
          · exact hha
          · subst hfl
            have := hsep.1
            omega
        have hadj : start.addr + start.size = h.addr := by omega
        have hres : addFreeList (start :: rest) t
            = ⟨start.addr, (start.size + h.size) % 2 ^ 64⟩ :: tl := by
          rw [addFreeList_behind hlt heq, if_pos hmerge]
        have hsz : (start.size + h.size) % 2 ^ 64 = start.size + h.size := by omega
        rw [hres, hsz]
        refine ⟨?_, ?_, ?_, ?_, ?_, ?_⟩
        · exact separated_head_swap hs1 (by simp only; omega)
        · intro b hb
          rcases List.mem_cons.1 hb with hb | hb
          · subst hb
            simp only [inSpace]
            omega
          · exact hp1 b (List.mem_cons_of_mem _ hb)
        · intro x
          have hbx := hb1 x
          simp only [covers, inBlock] at hbx ⊢
          constructor
          · rintro (hx | hx)
            · by_cases hxs : x < start.addr + start.size
              · exact Or.inr (Or.inl ⟨hx.1, hxs⟩)
              · rcases hbx.1 (Or.inl ⟨by omega, by omega⟩) with h1 | h1
                · exact Or.inl h1
                · exact Or.inr (Or.inr h1)
            · rcases hbx.1 (Or.inr hx) with h1 | h1
              · exact Or.inl h1
              · exact Or.inr (Or.inr h1)
          · rintro (hx | hx | hx)
            · rcases hbx.2 (Or.inl hx) with h1 | h1
              · exact Or.inl ⟨by omega, by omega⟩
              · exact Or.inr h1
            · exact Or.inl ⟨hx.1, by omega⟩
            · rcases hbx.2 (Or.inr hx) with h1 | h1
              · exact Or.inl ⟨by omega, by omega⟩
              · exact Or.inr h1
        · simp only [sumSizes] at hsum1 ⊢
          omega
        · intro k hk hall b hb
          have hk1 := hbig1 k hk (fun c hc => hall c (List.mem_cons_of_mem _ hc))
          rcases List.mem_cons.1 hb with hb | hb
          · subst hb
            have := hall start (List.mem_cons_self _ _)
            simp only
            omega
          · exact hk1 b (List.mem_cons_of_mem _ hb)
        · exact ⟨_, tl, rfl, Or.inr ⟨start, rest, rfl, hlt, rfl⟩⟩
      · -- no merge: `start` stays in front
        have hres : addFreeList (start :: rest) t = start :: h :: tl := by
          rw [addFreeList_behind hlt heq, if_neg hmerge]
        rw [hres]
        refine ⟨?_, ?_, ?_, ?_, ?_, ?_⟩
        · refine ⟨?_, hs1⟩
          omega
        · intro b hb
          rcases List.mem_cons.1 hb with hb | hb
          · subst hb
            exact hst
          · exact hp1 b hb
        · intro x
          have hbx := hb1 x
          rw [show covers (start :: h :: tl) x = (inBlock x start ∨ covers (h :: tl) x) from rfl,
            hbx, show covers (start :: rest) x = (inBlock x start ∨ covers rest x) from rfl]
          exact or_left_comm
        · simp only [sumSizes] at hsum1 ⊢
          omega
        · intro k hk hall b hb
          have hk1 := hbig1 k hk (fun c hc => hall c (List.mem_cons_of_mem _ hc))
          rcases List.mem_cons.1 hb with hb | hb
          · subst hb
            exact hall _ (List.mem_cons_self _ _)
          · exact hk1 b hb
        · exact ⟨_, _, rfl, Or.inr ⟨start, rest, rfl, hlt, rfl⟩⟩
    · -- the inserted block goes in front of `start`
      have hend : t.addr + t.size ≤ start.addr := by omega
      by_cases hmerge : start.addr ≤ (t.addr + t.size) % 2 ^ 64
      · have hres : addFreeList (start :: rest) t
            = ⟨t.addr, (t.size + start.size) % 2 ^ 64⟩ :: rest := by
          rw [addFreeList_front hlt, if_pos hmerge]
        have hsz : (t.size + start.size) % 2 ^ 64 = t.size + start.size := by omega
        rw [hres, hsz]
        refine ⟨?_, ?_, ?_, ?_, ?_, ?_⟩
        · exact separated_head_swap hsep (by simp only; omega)
        · intro b hb
          rcases List.mem_cons.1 hb with hb | hb
          · subst hb
            simp only [inSpace]
            omega
          · exact hpos b (List.mem_cons_of_mem _ hb)
        · intro x
          simp only [covers, inBlock]
          constructor
          · rintro (hx | hx)
            · by_cases hxs : x < t.addr + t.size
              · exact Or.inl ⟨hx.1, hxs⟩
              · exact Or.inr (Or.inl ⟨by omega, by omega⟩)
            · exact Or.inr (Or.inr hx)
          · rintro (hx | hx | hx)
            · exact Or.inl ⟨hx.1, by omega⟩
            · exact Or.inl ⟨by omega, by omega⟩
            · exact Or.inr hx
        · simp only [sumSizes]
          omega
        · intro k hk hall b hb
          rcases List.mem_cons.1 hb with hb | hb
          · subst hb
            simp only
            omega
          · exact hall b (List.mem_cons_of_mem _ hb)
        · exact ⟨_, rest, rfl, Or.inl rfl⟩
      · have hres : addFreeList (start :: rest) t = t :: start :: rest := by
          rw [addFreeList_front hlt, if_neg hmerge]
        rw [hres]
        refine ⟨?_, ?_, ?_, ?_, ?_, ?_⟩
        · refine ⟨?_, hsep⟩
          omega
        · intro b hb
          rcases List.mem_cons.1 hb with hb | hb
          · subst hb
            exact ⟨ht, hts⟩
          · exact hpos b hb
        · intro x
          simp only [covers]
        · simp only [sumSizes]
          omega
        · intro k hk hall b hb
          rcases List.mem_cons.1 hb with hb | hb
          · subst hb
            exact hk
          · exact hall b hb
        · exact ⟨_, _, rfl, Or.inl rfl⟩

theorem load64_store64 (m : Nat → Nat) (a v : Nat) (hv : v < 2 ^ 64) :
    load64 (store64 m a v) a = v := by
  have e0 : store64 m a v a = v / 256 ^ 0 % 256 := by simp [store64]
  have e1 : store64 m a v (a + 1) = v / 256 ^ 1 % 256 := by simp [store64]
  have e2 : store64 m a v (a + 2) = v / 256 ^ 2 % 256 := by simp [store64]
  have e3 : store64 m a v (a + 3) = v / 256 ^ 3 % 256 := by simp [store64]
  have e4 : store64 m a v (a + 4) = v / 256 ^ 4 % 256 := by simp [store64]
  have e5 : store64 m a v (a + 5) = v / 256 ^ 5 % 256 := by simp [store64]
  have e6 : store64 m a v (a + 6) = v / 256 ^ 6 % 256 := by simp [store64]
  have e7 : store64 m a v (a + 7) = v / 256 ^ 7 % 256 := by simp [store64]
  unfold load64
  rw [e0, e1, e2, e3, e4, e5, e6, e7]
  omega

theorem load64_lt (m : Nat → Nat) (a : Nat) : load64 m a < 2 ^ 64 := by
  unfold load64
  omega

theorem findFreeSize_some {fl : List free_list_elm} {s : Nat} {b : free_list_elm}
    {rest : List free_list_elm} (h : findFreeSize fl s = (some b, rest)) :
    ∃ pre post, fl = pre ++ b :: post ∧ rest = pre ++ post ∧ s ≤ b.size := by
  induction fl generalizing rest with
  | nil => simp [findFreeSize] at h
  | cons cur tl ih =>
    rw [findFreeSize] at h
    by_cases hc : cur.size < s
    · rw [if_pos hc] at h
      have h1 : (findFreeSize tl s).1 = some b := congrArg Prod.fst h
      have h2 : cur :: (findFreeSize tl s).2 = rest := congrArg Prod.snd h
      obtain ⟨pre, post, hfl, hrest, hb⟩ := ih (Prod.ext h1 rfl)
      refine ⟨cur :: pre, post, ?_, ?_, hb⟩
      · rw [hfl]; rfl
      · rw [← h2]; exact congrArg (List.cons cur) hrest
    · rw [if_neg hc] at h
      have h1 : cur = b := Option.some.inj (congrArg Prod.fst h)
      have h2 : tl = rest := congrArg Prod.snd h
      subst h1 h2
      exact ⟨[], tl, rfl, rfl, by omega⟩

theorem findFreeSize_none {fl : List free_list_elm} {s : Nat}
    {rest : List free_list_elm} (h : findFreeSize fl s = (none, rest)) : rest = fl := by
  induction fl generalizing rest with
  | nil => simp [findFreeSize] at h; exact h
  | cons cur tl ih =>
    rw [findFreeSize] at h
    by_cases hc : cur.size < s
    · rw [if_pos hc] at h
      have h1 : (findFreeSize tl s).1 = none := congrArg Prod.fst h
      have h2 : cur :: (findFreeSize tl s).2 = rest := congrArg Prod.snd h
      rw [← h2]; exact congrArg (List.cons cur) (ih (Prod.ext h1 rfl))
    · rw [if_neg hc] at h
      cases (congrArg Prod.fst h)

theorem effSize_ge (s : Nat) : 16 ≤ effSize s := by
  unfold effSize; split <;> omega

theorem effSize_lt (s : Nat) : effSize s < 2 ^ 64 := by
  unfold effSize; split <;> omega

theorem effSize_eq {s : Nat} (h : s + 8 < 2 ^ 64) :
    effSize s = if s + 8 < 16 then 16 else s + 8 := by
  unfold effSize
  rw [Nat.mod_eq_of_lt h]

theorem divide_page (e : Nat) :
    e ≤ divide e PAGE_SIZE * PAGE_SIZE ∧ divide e PAGE_SIZE * PAGE_SIZE < e + PAGE_SIZE := by
  unfold divide PAGE_SIZE
  simp only
  split <;> omega

theorem largeLen_eq {e : Nat} (h : divide e PAGE_SIZE < 2 ^ 31) :
    largeLen e = divide e PAGE_SIZE * PAGE_SIZE := by
  unfold largeLen toSizeT toInt PAGE_SIZE at *
  simp only
  rw [if_pos (by omega)]
  omega

theorem sys_mmap_lt {len : Nat} {fresh : Option Nat} : sys_mmap len fresh < 2 ^ 64 := by
  unfold sys_mmap MAP_FAILED
  split
  · omega
  · split <;> omega

theorem PAGE_SIZE_eq : PAGE_SIZE = 4096 := rfl

theorem mymalloc_cases {st : Heap} {s : Nat} {fresh : Option Nat} {p : Nat} {st1 : Heap}
    (h : mymalloc st s fresh = Outcome.ok (p, st1)) :
    (effSize s < PAGE_SIZE ∧ ∃ b fl, findFreeSize st.free_list (effSize s) = (some b, fl) ∧
      (p, st1) = carve { st with free_list := fl } b (effSize s)) ∨
    (effSize s < PAGE_SIZE ∧ findFreeSize st.free_list (effSize s) = (none, st.free_list) ∧
      sys_mmap PAGE_SIZE fresh ≠ MAP_FAILED ∧
      (p, st1) = carve { st with calls := st.calls ++ [Syscall.mmap PAGE_SIZE (sys_mmap PAGE_SIZE fresh)] }
        ⟨sys_mmap PAGE_SIZE fresh, PAGE_SIZE⟩ (effSize s)) ∨
    (PAGE_SIZE ≤ effSize s ∧ sys_mmap (largeLen (effSize s)) fresh ≠ MAP_FAILED ∧
      p = (sys_mmap (largeLen (effSize s)) fresh + 8) % 2 ^ 64 ∧
      st1 = { free_list := st.free_list,
              mem := store64 st.mem (sys_mmap (largeLen (effSize s)) fresh) (largeLen (effSize s)),
              calls := st.calls ++
                [Syscall.mmap (largeLen (effSize s)) (sys_mmap (largeLen (effSize s)) fresh)] }) := by
  unfold mymalloc at h
  simp only at h
  by_cases he : effSize s < PAGE_SIZE
  · rw [if_pos he] at h
    rcases hf : findFreeSize st.free_list (effSize s) with ⟨o, fl⟩
    rw [hf] at h
    cases o with
    | some b =>
      simp only at h
      left
      exact ⟨he, b, fl, rfl, (Outcome.ok.inj h).symm⟩
    | none =>
      simp only at h
      have hfl := findFreeSize_none hf
      subst hfl
      by_cases hm : sys_mmap PAGE_SIZE fresh = MAP_FAILED
      · rw [if_pos hm] at h
        cases h
      · rw [if_neg hm] at h
        right; left
        exact ⟨he, rfl, hm, (Outcome.ok.inj h).symm⟩
  · rw [if_neg he] at h
    by_cases hm : sys_mmap (largeLen (effSize s)) fresh = MAP_FAILED
    · rw [if_pos hm] at h
      cases h
    · rw [if_neg hm] at h
      have h2 := Outcome.ok.inj h
      right; right
      exact ⟨by omega, hm, (congrArg Prod.fst h2).symm, (congrArg Prod.snd h2).symm⟩

theorem carve_header (st : Heap) (b : free_list_elm) (e : Nat)
    (hb : b.addr < 2 ^ 64) (hbs : b.size < 2 ^ 64) (hle : e ≤ b.size) :
    ((carve st b e).1 + 2 ^ 64 - 8) % 2 ^ 64 = b.addr ∧
    e ≤ load64 (carve st b e).2.mem b.addr ∧ load64 (carve st b e).2.mem b.addr ≤ b.size := by
  unfold carve
  simp only
  split
  · refine ⟨by simp only; omega, ?_, ?_⟩
    · simp only
      rw [load64_store64 _ _ _ (by omega)]
    · simp only
      rw [load64_store64 _ _ _ (by omega)]
      exact hle
  · refine ⟨by simp only; omega, ?_, ?_⟩
    · simp only
      rw [load64_store64 _ _ _ hbs]
      exact hle
    · simp only
      rw [load64_store64 _ _ _ hbs]

theorem carve_split (st : Heap) (a n e : Nat) (hsp : a + n < 2 ^ 64) (hn : n < 2 ^ 63)
    (h : e + 16 ≤ n) :
    carve st ⟨a, n⟩ e =
      (a + 8, { free_list := addFreeList st.free_list ⟨a + e, n - e⟩,
                mem := store64 st.mem a e, calls := st.calls }) := by
  unfold carve toLong
  simp only
  rw [if_pos (by split <;> omega)]
  rw [show (a + e) % 2 ^ 64 = a + e by omega, show (n + 2 ^ 64 - e) % 2 ^ 64 = n - e by omega,
    show (a + 8) % 2 ^ 64 = a + 8 by omega]

theorem carve_whole (st : Heap) (a n e : Nat) (hsp : a + n < 2 ^ 64) (h8 : 8 ≤ n)
    (he : e ≤ n) (h : n < e + 16) :
    carve st ⟨a, n⟩ e =
      (a + 8, { free_list := st.free_list, mem := store64 st.mem a n, calls := st.calls }) := by
  unfold carve toLong
  simp only
  rw [if_neg (by split <;> omega)]
  rw [show (a + 8) % 2 ^ 64 = a + 8 by omega]

theorem largeLen_mod (e : Nat) : largeLen e % 4096 = 0 ∧ largeLen e < 2 ^ 64 := by
  unfold largeLen
  simp only
  rw [PAGE_SIZE_eq]
  omega

theorem mymalloc_large (st : Heap) (s : Nat) (fresh : Option Nat)
    (he : PAGE_SIZE ≤ effSize s) :
    mymalloc st s fresh =
      if sys_mmap (largeLen (effSize s)) fresh = MAP_FAILED then
        Outcome.fault (sys_mmap (largeLen (effSize s)) fresh)
      else
        Outcome.ok ((sys_mmap (largeLen (effSize s)) fresh + 8) % 2 ^ 64,
          { free_list := st.free_list,
            mem := store64 st.mem (sys_mmap (largeLen (effSize s)) fresh) (largeLen (effSize s)),
            calls := st.calls ++
              [Syscall.mmap (largeLen (effSize s)) (sys_mmap (largeLen (effSize s)) fresh)] }) := by
  unfold mymalloc
  simp only
  rw [if_neg (by omega)]

theorem memset_zero (m : Nat → Nat) (p n i : Nat) (h : i < n) :
    memset m p 0 n (p + i) = 0 := by
  unfold memset
  rw [if_pos ⟨by omega, by omega⟩]

theorem covers_append (l1 l2 : List free_list_elm) (x : Nat) :
    covers (l1 ++ l2) x ↔ covers l1 x ∨ covers l2 x := by
  induction l1 with
  | nil => simp [covers]
  | cons b rest ih =>
    rw [List.cons_append]
    show (inBlock x b ∨ covers (rest ++ l2) x) ↔ ((inBlock x b ∨ covers rest x) ∨ covers l2 x)
    rw [ih]
    exact or_assoc.symm

theorem separated_iff_pairwise (l : List free_list_elm) :
    separated l ↔ l.Pairwise (fun a b => a.addr + a.size < b.addr) := by
  induction l with
  | nil => simp [separated]
  | cons a rest ih =>
    cases rest with
    | nil => simp [separated]
    | cons b rest2 =>
      rw [show separated (a :: b :: rest2) = (a.addr + a.size < b.addr ∧ separated (b :: rest2))
        from rfl, ih]
      constructor
      · rintro ⟨hab, hp⟩
        rw [List.pairwise_cons]
        refine ⟨?_, hp⟩
        intro c hc
        rcases List.mem_cons.1 hc with hc | hc
        · subst hc
          exact hab
        · have := (List.pairwise_cons.1 hp).1 c hc
          omega
      · intro hp
        have h2 := List.pairwise_cons.1 hp
        exact ⟨h2.1 b (List.mem_cons_self _ _), h2.2⟩

theorem separated_remove {pre post : List free_list_elm} {b : free_list_elm}
    (h : separated (pre ++ b :: post)) :
    separated (pre ++ post) ∧ ∀ x, inBlock x b → ¬ covers (pre ++ post) x := by
  rw [separated_iff_pairwise] at h ⊢
  rw [List.pairwise_append] at h
  obtain ⟨hpre, hbp, hcross⟩ := h
  rw [List.pairwise_cons] at hbp
  constructor
  · rw [List.pairwise_append]
    exact ⟨hpre, hbp.2, fun a ha c hc => hcross a ha c (List.mem_cons_of_mem _ hc)⟩
  · intro x hx hcov
    rw [covers_append, covers_iff_exists, covers_iff_exists] at hcov
    unfold inBlock at hx hcov
    rcases hcov with ⟨c, hc, hxc⟩ | ⟨c, hc, hxc⟩
    · have := hcross c hc b (List.mem_cons_self _ _)
      omega
    · have := hbp.1 c hc
      omega

theorem mapped_mono {calls more : List Syscall} {x : Nat} (h : mapped calls x) :
    mapped (calls ++ more) x := by
  obtain ⟨c, hc, hx⟩ := h
  exact ⟨c, List.mem_append_left _ hc, hx⟩

theorem carve_cases (st : Heap) (a n e : Nat) (hsp : a + n < 2 ^ 64) (he : e ≤ n)
    (he16 : 16 ≤ e) (he2 : e < 2 ^ 63) :
    (e + 16 ≤ n ∧ carve st ⟨a, n⟩ e =
      (a + 8, { free_list := addFreeList st.free_list ⟨a + e, n - e⟩,
                mem := store64 st.mem a e, calls := st.calls })) ∨
    carve st ⟨a, n⟩ e =
      (a + 8, { free_list := st.free_list, mem := store64 st.mem a n, calls := st.calls }) := by
  unfold carve toLong
  simp only
  by_cases hc : (0 : Int) ≤ if (n + 2 ^ 64 - (e + 16) % 2 ^ 64) % 2 ^ 64 % 2 ^ 64 < 2 ^ 63 then
      (((n + 2 ^ 64 - (e + 16) % 2 ^ 64) % 2 ^ 64 % 2 ^ 64 : Nat) : Int)
    else (((n + 2 ^ 64 - (e + 16) % 2 ^ 64) % 2 ^ 64 % 2 ^ 64 : Nat) : Int) - 2 ^ 64
  · left
    have h16 : e + 16 ≤ n := by
      split at hc <;> omega
    refine ⟨h16, ?_⟩
    rw [if_pos hc]
    rw [show (a + e) % 2 ^ 64 = a + e by omega, show (n + 2 ^ 64 - e) % 2 ^ 64 = n - e by omega,
      show (a + 8) % 2 ^ 64 = a + 8 by omega]
  · right
    rw [if_neg hc]
    rw [show (a + 8) % 2 ^ 64 = a + 8 by omega]

/-- The carve step keeps the heap invariant: the candidate `b` is mapped, disjoint
from the free list and from the live blocks; afterwards the block handed out is
live. -/
theorem carve_inv {st : Heap} {live : List free_list_elm} {a n e : Nat}
    (hinv : HeapInv st live) (hsp : a + n < 2 ^ 64) (he : e ≤ n) (he16 : 16 ≤ e)
    (he2 : e < 2 ^ 63)
    (hmap : ∀ x, inBlock x ⟨a, n⟩ → mapped st.calls x)
    (hfree : ∀ x, inBlock x ⟨a, n⟩ → ¬ covers st.free_list x)
    (hlive : ∀ x, inBlock x ⟨a, n⟩ → ¬ covers live x) :
    ∃ m, e ≤ m ∧ m ≤ n ∧ (carve st ⟨a, n⟩ e).1 = a + 8 ∧
      load64 (carve st ⟨a, n⟩ e).2.mem a = m ∧
      (carve st ⟨a, n⟩ e).2.calls = st.calls ∧
      HeapInv (carve st ⟨a, n⟩ e).2 (⟨a, m⟩ :: live) := by
  have hlsep : ∀ m, m ≤ n →
      List.Pairwise (fun x y => ¬ overlaps x y) ((⟨a, m⟩ : free_list_elm) :: live) := by
    intro m hm
    rw [List.pairwise_cons]
    refine ⟨?_, hinv.lsep⟩
    intro c hc hov
    rw [overlaps_iff_common_byte] at hov
    obtain ⟨x, hx1, hx2⟩ := hov
    refine hlive x ?_ ((covers_iff_exists _ _).2 ⟨c, hc, hx2⟩)
    unfold inBlock at hx1 ⊢
    simp only at hx1 ⊢
    omega
  rcases carve_cases st a n e hsp he he16 he2 with ⟨h16, hc⟩ | hc
  · -- split: the block `(a, e)` is handed out, `(a + e, n - e)` goes to the free list
    rw [hc]
    have hno : ∀ b ∈ st.free_list, ¬ overlaps ⟨a + e, n - e⟩ b := by
      intro b hb hov
      rw [overlaps_iff_common_byte] at hov
      obtain ⟨x, hx1, hx2⟩ := hov
      refine hfree x ?_ ((covers_iff_exists _ _).2 ⟨b, hb, hx2⟩)
      unfold inBlock at hx1 ⊢
      simp only at hx1 ⊢
      omega
    obtain ⟨hs, hp, hcov, _, hbig, _⟩ := addFreeList_spec ⟨a + e, n - e⟩
      (by simp only; omega) (by unfold inSpace; simp only; omega) st.free_list hinv.sep
      (fun b hb => ⟨by have := (hinv.big b hb).1; omega, (hinv.big b hb).2⟩) hno
    refine ⟨e, Nat.le_refl _, he, rfl, load64_store64 _ _ _ (by omega), rfl, ?_⟩
    refine ⟨hs, ?_, ?_, ?_, ?_, hlsep e he⟩
    · intro b hb
      exact ⟨hbig 16 (by simp only; omega) (fun c hc => (hinv.big c hc).1) b hb, (hp b hb).2⟩
    · intro x hx
      rcases (hcov x).1 hx with hx | hx
      · apply hmap
        unfold inBlock at hx ⊢
        simp only at hx ⊢
        omega
      · exact hinv.fmap x hx
    · intro x hx
      rcases hx with hx | hx
      · apply hmap
        unfold inBlock at hx ⊢
        simp only at hx ⊢
        omega
      · exact hinv.lmap x hx
    · intro x hx hfx
      rcases hx with hx | hx
      · rcases (hcov x).1 hfx with hfx | hfx
        · unfold inBlock at hx hfx
          simp only at hx hfx
          omega
        · refine hfree x ?_ hfx
          unfold inBlock at hx ⊢
          simp only at hx ⊢
          omega
      · rcases (hcov x).1 hfx with hfx | hfx
        · refine hlive x ?_ hx
          unfold inBlock at hfx ⊢
          simp only at hfx ⊢
          omega
        · exact hinv.apart x hx hfx
  · -- the whole candidate is handed out
    rw [hc]
    refine ⟨n, he, Nat.le_refl _, rfl, load64_store64 _ _ _ (by omega), rfl, ?_⟩
    refine ⟨hinv.sep, hinv.big, hinv.fmap, ?_, ?_, hlsep n (Nat.le_refl _)⟩
    · intro x hx
      rcases hx with hx | hx
      · exact hmap x hx
      · exact hinv.lmap x hx
    · intro x hx hfx
      rcases hx with hx | hx
      · exact hfree x hx hfx
      · exact hinv.apart x hx hfx

theorem freshMaps_prefix {calls more : List Syscall} (h : freshMaps (calls ++ more)) :
    freshMaps calls := by
  unfold freshMaps at h ⊢
  exact ⟨fun c hc => h.1 c (List.mem_append_left _ hc), (List.pairwise_append.1 h.2).1⟩

theorem fresh_not_mapped {calls : List Syscall} {len r : Nat}
    (h : freshMaps (calls ++ [Syscall.mmap len r])) :
    r + len < 2 ^ 64 ∧ ∀ x, r ≤ x → x < r + len → ¬ mapped calls x := by
  unfold freshMaps at h
  refine ⟨h.1 (Syscall.mmap len r) (by simp), ?_⟩
  intro x hx1 hx2 hm
  obtain ⟨c, hc, hxc⟩ := hm
  have hap := (List.pairwise_append.1 h.2).2.2 c hc (Syscall.mmap len r) (by simp)
  cases c with
  | mmap l2 r2 =>
    unfold inMap at hxc
    unfold mapsApart at hap
    omega
  | munmap a l => exact hxc

theorem mapped_last {calls : List Syscall} {len r x : Nat} (h1 : r ≤ x) (h2 : x < r + len) :
    mapped (calls ++ [Syscall.mmap len r]) x :=
  ⟨Syscall.mmap len r, by simp, ⟨h1, h2⟩⟩

theorem not_covers_of_not_overlaps {live : List free_list_elm} {nb : free_list_elm}
    (h : ∀ c ∈ live, ¬ overlaps nb c) {x : Nat} (hx : inBlock x nb) : ¬ covers live x := by
  intro hc
  obtain ⟨c, hcl, hxc⟩ := (covers_iff_exists _ _).1 hc
  exact h c hcl ((overlaps_iff_common_byte _ _).2 ⟨x, hx, hxc⟩)

/-- One returning `mymalloc` call keeps the heap invariant; the block it hands out
becomes live and the payload region of the returned pointer lies inside it. -/
theorem mymalloc_step {st : Heap} {live : List free_list_elm} {s : Nat}
    {fresh : Option Nat} {p : Nat} {st1 : Heap} (hinv : HeapInv st live)
    (h : mymalloc st s fresh = Outcome.ok (p, st1)) (hmaps : freshMaps st1.calls) :
    ∃ nb : free_list_elm, HeapInv st1 (nb :: live) ∧ 16 ≤ nb.size ∧ inSpace nb ∧
      p = nb.addr + 8 ∧ load64 st1.mem nb.addr = nb.size ∧
      payloadRegion st1 p = (nb.addr + 8, nb.addr + nb.size) := by
  have hreg : ∀ (a m : Nat), a + m < 2 ^ 64 → 8 ≤ m → p = a + 8 → load64 st1.mem a = m →
      payloadRegion st1 p = (a + 8, a + m) := by
    intro a m ha hm hp hl
    unfold payloadRegion
    rw [show (p + 2 ^ 64 - 8) % 2 ^ 64 = a by omega, hl, hp]
  have he16 := effSize_ge s
  rcases mymalloc_cases h with ⟨he, b, fl, hf, hc⟩ | ⟨he, _, hm, hc⟩ | ⟨he, hm, hp, hst⟩
  · -- a block of the free list is recycled
    rw [PAGE_SIZE_eq] at he
    obtain ⟨pre, post, hpre, hfl, hbs⟩ := findFreeSize_some hf
    have hbm : b ∈ st.free_list := by rw [hpre]; simp
    have hsep := hinv.sep
    rw [hpre] at hsep
    obtain ⟨hsep1, hdis⟩ := separated_remove hsep
    have hsub : ∀ x, covers fl x → covers st.free_list x := by
      intro x hx
      rw [hfl, covers_append] at hx
      rw [hpre, covers_append]
      rcases hx with hx | hx
      · exact Or.inl hx
      · exact Or.inr (Or.inr hx)
    have hbc : ∀ x, inBlock x b → covers st.free_list x := by
      intro x hx
      rw [hpre, covers_append]
      exact Or.inr (Or.inl hx)
    have hinv0 : HeapInv { st with free_list := fl } live := by
      refine ⟨by rw [hfl]; exact hsep1, ?_, fun x hx => hinv.fmap x (hsub x hx), hinv.lmap,
        fun x hx hfx => hinv.apart x hx (hsub x hfx), hinv.lsep⟩
      intro c hc
      apply hinv.big c
      rw [hfl] at hc
      rw [hpre]
      rcases List.mem_append.1 hc with hc | hc
      · exact List.mem_append_left _ hc
      · exact List.mem_append_right _ (List.mem_cons_of_mem _ hc)
    have hbsp := (hinv.big b hbm).2
    unfold inSpace at hbsp
    obtain ⟨a, n⟩ := b
    simp only at hbsp hbs
    obtain ⟨m, hm1, hm2, hp1, hl1, _, hinv1⟩ := carve_inv (a := a) (n := n) (e := effSize s)
      hinv0 hbsp hbs he16 (by omega) (fun x hx => hinv.fmap x (hbc x hx))
      (fun x hx => by rw [hfl]; exact hdis x hx)
      (fun x hx hl => hinv.apart x hl (hbc x hx))
    rw [← hc] at hp1 hl1 hinv1
    simp only at hp1 hl1 hinv1
    exact ⟨⟨a, m⟩, hinv1, show 16 ≤ m by omega, show a + m < 2 ^ 64 by omega, hp1, hl1,
      hreg a m (by omega) (by omega) hp1 hl1⟩
  · -- a fresh page is carved
    rw [PAGE_SIZE_eq] at he hc hm
    have hr : sys_mmap 4096 fresh < 2 ^ 64 := sys_mmap_lt
    have hcalls : st1.calls = st.calls ++ [Syscall.mmap 4096 (sys_mmap 4096 fresh)] := by
      have := congrArg (fun q : Nat × Heap => q.2.calls) hc
      simp only at this
      rw [this]
      unfold carve
      simp only
      split <;> rfl
    rw [hcalls] at hmaps
    obtain ⟨hsp, hnm⟩ := fresh_not_mapped hmaps
    have hinv0 : HeapInv
        { st with calls := st.calls ++ [Syscall.mmap 4096 (sys_mmap 4096 fresh)] } live :=
      ⟨hinv.sep, hinv.big, fun x hx => mapped_mono (hinv.fmap x hx),
        fun x hx => mapped_mono (hinv.lmap x hx), hinv.apart, hinv.lsep⟩
    obtain ⟨m, hm1, hm2, hp1, hl1, _, hinv1⟩ := carve_inv (a := sys_mmap 4096 fresh)
      (n := 4096) (e := effSize s) hinv0 hsp (by omega) he16 (by omega)
      (fun x hx => mapped_last hx.1 hx.2)
      (fun x hx hfx => hnm x hx.1 hx.2 (hinv.fmap x hfx))
      (fun x hx hl => hnm x hx.1 hx.2 (hinv.lmap x hl))
    rw [← hc] at hp1 hl1 hinv1
    simp only at hp1 hl1 hinv1
    exact ⟨⟨sys_mmap 4096 fresh, m⟩, hinv1, show 16 ≤ m by omega,
      show sys_mmap 4096 fresh + m < 2 ^ 64 by omega, hp1, hl1,
      hreg (sys_mmap 4096 fresh) m (by omega) (by omega) hp1 hl1⟩
  · -- a fresh multi-page region is handed out whole
    have hlen := largeLen_mod (effSize s)
    have hne : largeLen (effSize s) ≠ 0 := by
      intro h0
      apply hm
      unfold sys_mmap
      rw [if_pos h0]
    have hcalls : st1.calls = st.calls ++
        [Syscall.mmap (largeLen (effSize s)) (sys_mmap (largeLen (effSize s)) fresh)] := by
      rw [hst]
    rw [hcalls] at hmaps
    obtain ⟨hsp, hnm⟩ := fresh_not_mapped hmaps
    have hp1 : p = sys_mmap (largeLen (effSize s)) fresh + 8 := by omega
    have hl1 : load64 st1.mem (sys_mmap (largeLen (effSize s)) fresh) = largeLen (effSize s) := by
      rw [hst]
      exact load64_store64 _ _ _ hlen.2
    refine ⟨⟨sys_mmap (largeLen (effSize s)) fresh, largeLen (effSize s)⟩, ?_,
      show 16 ≤ largeLen (effSize s) by omega, hsp, hp1, hl1,
      hreg (sys_mmap (largeLen (effSize s)) fresh) (largeLen (effSize s)) hsp (by omega) hp1 hl1⟩
    rw [hst]
    refine ⟨hinv.sep, hinv.big, fun x hx => mapped_mono (hinv.fmap x hx), ?_, ?_, ?_⟩
    · intro x hx
      rcases hx with hx | hx
      · exact mapped_last hx.1 hx.2
      · exact mapped_mono (hinv.lmap x hx)
    · intro x hx hfx
      rcases hx with hx | hx
      · exact hnm x hx.1 hx.2 (hinv.fmap x hfx)
      · exact hinv.apart x hx hfx
    · rw [List.pairwise_cons]
      refine ⟨?_, hinv.lsep⟩
      intro c hc hov
      obtain ⟨x, hx1, hx2⟩ := (overlaps_iff_common_byte _ _).1 hov
      exact hnm x hx1.1 hx1.2 (hinv.lmap x ((covers_iff_exists _ _).2 ⟨c, hc, hx2⟩))

theorem mymalloc_calls {st : Heap} {s : Nat} {fresh : Option Nat} {p : Nat} {st1 : Heap}
    (h : mymalloc st s fresh = Outcome.ok (p, st1)) : ∃ more, st1.calls = st.calls ++ more := by
  rcases mymalloc_cases h with ⟨_, b, fl, _, hc⟩ | ⟨_, _, _, hc⟩ | ⟨_, _, _, hst⟩
  · have := congrArg (fun q : Nat × Heap => q.2.calls) hc
    simp only at this
    rw [this]
    unfold carve
    simp only
    split <;> exact ⟨[], by simp⟩
  · have := congrArg (fun q : Nat × Heap => q.2.calls) hc
    simp only at this
    rw [this]
    unfold carve
    simp only
    split <;> exact ⟨_, rfl⟩
  · rw [hst]
    exact ⟨_, rfl⟩

theorem mallocSeq_cons {st : Heap} {s : Nat} {fresh : Option Nat}
    {rest : List (Nat × Option Nat)} {regions : List (Nat × Nat)} {st2 : Heap}
    (h : mallocSeq st ((s, fresh) :: rest) = Outcome.ok (regions, st2)) :
    ∃ p st1 regs, mymalloc st s fresh = Outcome.ok (p, st1) ∧
      mallocSeq st1 rest = Outcome.ok (regs, st2) ∧ regions = payloadRegion st1 p :: regs := by
  rw [mallocSeq] at h
  rcases hm : mymalloc st s fresh with ⟨p, st1⟩ | a
  · rw [hm] at h
    simp only at h
    rcases hr : mallocSeq st1 rest with ⟨regs, st3⟩ | a
    · rw [hr] at h
      simp only at h
      have h2 := Outcome.ok.inj h
      have h3 : st3 = st2 := congrArg Prod.snd h2
      subst h3
      exact ⟨p, st1, regs, rfl, hr, (congrArg Prod.fst h2).symm⟩
    · rw [hr] at h
      cases h
  · rw [hm] at h
    cases h

theorem mallocSeq_calls : ∀ (reqs : List (Nat × Option Nat)) (st : Heap)
    (regions : List (Nat × Nat)) (st2 : Heap),
    mallocSeq st reqs = Outcome.ok (regions, st2) → ∃ more, st2.calls = st.calls ++ more := by
  intro reqs
  induction reqs with
  | nil =>
    intro st regions st2 h
    rw [mallocSeq] at h
    have := congrArg Prod.snd (Outcome.ok.inj h)
    simp only at this
    subst this
    exact ⟨[], by simp⟩
  | cons r rest ih =>
    intro st regions st2 h
    obtain ⟨s, fresh⟩ := r
    obtain ⟨p, st1, regs, hm, hr, _⟩ := mallocSeq_cons h
    obtain ⟨m1, h1⟩ := mymalloc_calls hm
    obtain ⟨m2, h2⟩ := ih st1 regs st2 hr
    exact ⟨m1 ++ m2, by rw [h2, h1, List.append_assoc]⟩

theorem mallocSeq_disjoint : ∀ (reqs : List (Nat × Option Nat)) (st : Heap)
    (live : List free_list_elm) (regions : List (Nat × Nat)) (st2 : Heap),
    HeapInv st live → mallocSeq st reqs = Outcome.ok (regions, st2) → freshMaps st2.calls →
    regions.Pairwise regionsDisjoint ∧
      ∀ r ∈ regions, ∀ x, r.1 ≤ x → x < r.2 → ¬ covers live x := by
  intro reqs
  induction reqs with
  | nil =>
    intro st live regions st2 _ h _
    rw [mallocSeq] at h
    have := congrArg Prod.fst (Outcome.ok.inj h)
    simp only at this
    subst this
    exact ⟨List.Pairwise.nil, fun r hr => by cases hr⟩
  | cons r rest ih =>
    intro st live regions st2 hinv h hmaps
    obtain ⟨s, fresh⟩ := r
    obtain ⟨p, st1, regs, hm, hr, hregs⟩ := mallocSeq_cons h
    obtain ⟨more, hmore⟩ := mallocSeq_calls rest st1 regs st2 hr
    have hmaps1 : freshMaps st1.calls := by
      rw [hmore] at hmaps
      exact freshMaps_prefix hmaps
    obtain ⟨nb, hinv1, h8, hnsp, _, _, hpr⟩ := mymalloc_step hinv hm hmaps1
    obtain ⟨hpw, hout⟩ := ih st1 (nb :: live) regs st2 hinv1 hr hmaps
    rw [hregs, hpr]
    constructor
    · rw [List.pairwise_cons]
      refine ⟨?_, hpw⟩
      intro r hr
      by_contra hnd
      unfold regionsDisjoint at hnd
      simp only at hnd
      have hx := hout r hr (max (nb.addr + 8) r.1) (by omega) (by omega)
      apply hx
      left
      unfold inBlock
      omega
    · intro r hr x hx1 hx2
      rcases List.mem_cons.1 hr with hr | hr
      · subst hr
        simp only at hx1 hx2
        have hl := List.pairwise_cons.1 hinv1.lsep
        exact not_covers_of_not_overlaps hl.1 (x := x) ⟨by omega, by omega⟩
      · intro hc
        exact hout r hr x hx1 hx2 (Or.inr hc)

theorem regionsDisjoint_iff (r1 r2 : Nat × Nat) :
    regionsDisjoint r1 r2 ↔ ∀ x, ¬ (r1.1 ≤ x ∧ x < r1.2 ∧ r2.1 ≤ x ∧ x < r2.2) := by
  unfold regionsDisjoint
  constructor
  · intro h x hx
    omega
  · intro h
    by_contra hn
    exact h (max r1.1 r2.1) (by omega)

/-- One insertion conserves the covered bytes and the total size, with no assumption
on the sizes of the blocks.  The last part describes the head of the result. -/
theorem addFreeList_conserves (t : free_list_elm) (hts : inSpace t) :
    ∀ fl : List free_list_elm, separated fl → (∀ b ∈ fl, inSpace b) →
      (∀ b ∈ fl, ¬ overlaps t b) →
      (∀ x, covers (addFreeList fl t) x ↔ (inBlock x t ∨ covers fl x)) ∧
      sumSizes (addFreeList fl t) = sumSizes fl + t.size ∧
      (∃ h tl, addFreeList fl t = h :: tl ∧ inSpace h ∧
        ((h.addr = t.addr ∧ (h.size = t.size ∨ ∃ d rest, fl = d :: rest ∧ t.addr ≤ d.addr ∧
            d.addr ≤ t.addr + t.size ∧ h.size = t.size + d.size)) ∨
          ∃ d rest, fl = d :: rest ∧ d.addr < t.addr ∧ h.addr = d.addr)) := by
  intro fl
  induction fl with
  | nil =>
    intro _ _ _
    refine ⟨?_, ?_, ⟨t, [], rfl, hts, Or.inl ⟨rfl, Or.inl rfl⟩⟩⟩
    · intro x
      simp [addFreeList, covers]
    · simp [addFreeList, sumSizes]
  | cons start rest ih =>
    intro hsep hsp hno
    have hst := hsp start (List.mem_cons_self _ _)
    have hnst := hno start (List.mem_cons_self _ _)
    have ih1 := ih (separated_tail hsep) (fun b hb => hsp b (List.mem_cons_of_mem _ hb))
      (fun b hb => hno b (List.mem_cons_of_mem _ hb))
    unfold inSpace at hts hst
    unfold overlaps at hnst
    by_cases hlt : start.addr < t.addr
    · obtain ⟨hb1, hsum1, h, tl, heq, hhsp, hhead⟩ := ih1
      rw [heq] at hb1 hsum1
      unfold inSpace at hhsp
      by_cases hmerge : h.addr ≤ (start.addr + start.size) % 2 ^ 64
      · -- `start` absorbs the head of the recursive result
        have hkey : h.addr = t.addr ∧ (h.addr = start.addr + start.size ∨ h.size = 0) := by
          rcases hhead with ⟨hha, hsz | ⟨d, rest2, hfl, hd1, hd2, _⟩⟩ | ⟨d, rest2, hfl, _, hd⟩
          · refine ⟨hha, ?_⟩
            omega
          · subst hfl
            have := hsep.1
            refine ⟨hha, ?_⟩
            omega
          · subst hfl
            have := hsep.1
            omega
        have hres : addFreeList (start :: rest) t
            = ⟨start.addr, (start.size + h.size) % 2 ^ 64⟩ :: tl := by
          rw [addFreeList_behind hlt heq, if_pos hmerge]
        have hsz : (start.size + h.size) % 2 ^ 64 = start.size + h.size := by omega
        rw [hres, hsz]
        refine ⟨?_, ?_, ?_⟩
        · intro x
          have hK : inBlock x ⟨start.addr, start.size + h.size⟩
              ↔ (inBlock x start ∨ inBlock x h) := by
            unfold inBlock
            simp only
            omega
          rw [show covers (⟨start.addr, start.size + h.size⟩ :: tl) x
              = (inBlock x ⟨start.addr, start.size + h.size⟩ ∨ covers tl x) from rfl,
            hK, or_assoc, ← show covers (h :: tl) x = (inBlock x h ∨ covers tl x) from rfl,
            hb1 x, show covers (start :: rest) x = (inBlock x start ∨ covers rest x) from rfl]
          exact or_left_comm
        · simp only [sumSizes] at hsum1 ⊢
          omega
        · refine ⟨_, tl, rfl, ?_, Or.inr ⟨start, rest, rfl, hlt, rfl⟩⟩
          unfold inSpace
          simp only
          omega
      · have hres : addFreeList (start :: rest) t = start :: h :: tl := by
          rw [addFreeList_behind hlt heq, if_neg hmerge]
        rw [hres]
        refine ⟨?_, ?_, ⟨_, _, rfl, hst, Or.inr ⟨start, rest, rfl, hlt, rfl⟩⟩⟩
        · intro x
          rw [show covers (start :: h :: tl) x = (inBlock x start ∨ covers (h :: tl) x) from rfl,
            hb1 x, show covers (start :: rest) x = (inBlock x start ∨ covers rest x) from rfl]
          exact or_left_comm
        · simp only [sumSizes] at hsum1 ⊢
          omega
    · by_cases hmerge : start.addr ≤ (t.addr + t.size) % 2 ^ 64
      · have hkey : start.addr = t.addr + t.size ∨ start.size = 0 := by omega
        have hres : addFreeList (start :: rest) t
            = ⟨t.addr, (t.size + start.size) % 2 ^ 64⟩ :: rest := by
          rw [addFreeList_front hlt, if_pos hmerge]
        have hsz : (t.size + start.size) % 2 ^ 64 = t.size + start.size := by omega
        rw [hres, hsz]
        refine ⟨?_, ?_, ?_⟩
        · intro x
          have hK : inBlock x ⟨t.addr, t.size + start.size⟩
              ↔ (inBlock x t ∨ inBlock x start) := by
            unfold inBlock
            simp only
            omega
          rw [show covers (⟨t.addr, t.size + start.size⟩ :: rest) x
              = (inBlock x ⟨t.addr, t.size + start.size⟩ ∨ covers rest x) from rfl,
            hK, or_assoc]
          rfl
        · simp only [sumSizes]
          omega
        · refine ⟨_, rest, rfl, ?_, Or.inl ⟨rfl, Or.inr ⟨start, rest, rfl, ?_, ?_, rfl⟩⟩⟩
          · unfold inSpace
            simp only
            omega
          · omega
          · omega
      · have hres : addFreeList (start :: rest) t = t :: start :: rest := by
          rw [addFreeList_front hlt, if_neg hmerge]
        rw [hres]
        refine ⟨?_, ?_, ⟨_, _, rfl, hts, Or.inl ⟨rfl, Or.inl rfl⟩⟩⟩
        · intro x
          rfl
        · simp only [sumSizes]
          omega

theorem myfree_small {st : Heap} {p : Nat} (hp : p ≠ 0)
    (h : (blockOf st p).size < PAGE_SIZE) :
    myfree st p = { st with free_list := addFreeList st.free_list (blockOf st p) } := by
  unfold blockOf at h
  simp only at h
  unfold myfree
  rw [if_neg hp]
  simp only
  rw [if_pos h]
  rfl

theorem myfree_large {st : Heap} {p : Nat} (hp : p ≠ 0)
    (h : ¬ (blockOf st p).size < PAGE_SIZE) :
    myfree st p = { st with calls := st.calls ++ [Syscall.munmap p (blockOf st p).size] } := by
  unfold blockOf at h
  simp only at h
  unfold myfree
  rw [if_neg hp]
  simp only
  rw [if_neg h]
  rfl

theorem separated_around {pre post : List free_list_elm} {b : free_list_elm}
    (h : separated (pre ++ b :: post)) :
    (∀ c ∈ pre, c.addr + c.size < b.addr) ∧ (∀ d ∈ post, b.addr + b.size < d.addr) := by
  rw [separated_iff_pairwise, List.pairwise_append, List.pairwise_cons] at h
  exact ⟨fun c hc => h.2.2 c hc b (List.mem_cons_self _ _), h.2.1.1⟩

theorem separated_replace {pre post : List free_list_elm} {b c : free_list_elm}
    (h : separated (pre ++ b :: post)) (h1 : b.addr ≤ c.addr)
    (h2 : c.addr + c.size ≤ b.addr + b.size) : separated (pre ++ c :: post) := by
  rw [separated_iff_pairwise, List.pairwise_append, List.pairwise_cons] at h ⊢
  obtain ⟨hpre, ⟨hb, hpost⟩, hcross⟩ := h
  refine ⟨hpre, ⟨?_, hpost⟩, ?_⟩
  · intro d hd
    have := hb d hd
    omega
  · intro x hx y hy
    rcases List.mem_cons.1 hy with hy | hy
    · subst hy
      have := hcross x hx b (List.mem_cons_self _ _)
      omega
    · exact hcross x hx y (List.mem_cons_of_mem _ hy)

/-- A block that ends strictly below the head of the list is put in front of it. -/
theorem addFreeList_before {post : List free_list_elm} {t : free_list_elm}
    (hts : inSpace t) (h : ∀ d ∈ post, t.addr + t.size < d.addr) :
    addFreeList post t = t :: post := by
  unfold inSpace at hts
  cases post with
  | nil => rfl
  | cons d rest =>
    have hd := h d (List.mem_cons_self _ _)
    rw [addFreeList_front (by omega), if_neg (by omega)]

/-- Insertion walks past the blocks that lie below the inserted block and do not
reach the head of what the insertion into the rest returns. -/
theorem addFreeList_skip (t h : free_list_elm) (post tl : List free_list_elm)
    (heq : addFreeList post t = h :: tl) :
    ∀ pre : List free_list_elm, (∀ c ∈ pre, c.addr < t.addr ∧ inSpace c) →
      separated (pre ++ h :: tl) → addFreeList (pre ++ post) t = pre ++ h :: tl := by
  intro pre
  induction pre with
  | nil =>
    intro _ _
    exact heq
  | cons c pre2 ih =>
    intro hpre hsep
    have hc := hpre c (List.mem_cons_self _ _)
    have ih1 := ih (fun x hx => hpre x (List.mem_cons_of_mem _ hx)) (separated_tail hsep)
    have hcs := hc.2
    unfold inSpace at hcs
    cases pre2 with
    | nil =>
      have h1 : c.addr + c.size < h.addr := hsep.1
      have ih2 : addFreeList post t = h :: tl := ih1
      show addFreeList (c :: post) t = c :: h :: tl
      rw [addFreeList_behind hc.1 ih2, if_neg (by omega)]
    | cons c2 pre3 =>
      have h1 : c.addr + c.size < c2.addr := hsep.1
      have ih2 : addFreeList ((c2 :: pre3) ++ post) t = c2 :: (pre3 ++ h :: tl) := ih1
      show addFreeList (c :: ((c2 :: pre3) ++ post)) t = c :: ((c2 :: pre3) ++ h :: tl)
      rw [addFreeList_behind hc.1 ih2, if_neg (by omega)]
      rfl

theorem load64_store64_other (m : Nat → Nat) (a b v : Nat) (h : b + 8 ≤ a ∨ a + 8 ≤ b) :
    load64 (store64 m b v) a = load64 m a := by
  have hx : ∀ i, i < 8 → store64 m b v (a + i) = m (a + i) := by
    intro i hi
    unfold store64
    rw [if_neg (by omega)]
  unfold load64
  rw [hx 1 (by omega), hx 2 (by omega), hx 3 (by omega), hx 4 (by omega), hx 5 (by omega),
    hx 6 (by omega), hx 7 (by omega)]
  have h0 := hx 0 (by omega)
  rw [Nat.add_zero] at h0
  rw [h0]

theorem carve_mem (st : Heap) (b : free_list_elm) (e : Nat) :
    ∃ v, (carve st b e).2.mem = store64 st.mem b.addr v ∧
      (carve st b e).1 = (b.addr + 8) % 2 ^ 64 := by
  unfold carve
  simp only
  split
  · exact ⟨_, rfl, rfl⟩
  · exact ⟨_, rfl, rfl⟩

/-- The only memory a returning `mymalloc` writes is the header in front of the
pointer it returns. -/
theorem mymalloc_mem {st : Heap} {s : Nat} {fresh : Option Nat} {p : Nat} {st1 : Heap}
    (hw : machineWords st.free_list) (h : mymalloc st s fresh = Outcome.ok (p, st1)) :
    ∃ a v, a < 2 ^ 64 ∧ p = (a + 8) % 2 ^ 64 ∧ st1.mem = store64 st.mem a v := by
  rcases mymalloc_cases h with ⟨_, b, fl, hf, hc⟩ | ⟨_, _, _, hc⟩ | ⟨_, _, hp, hst⟩
  · obtain ⟨pre, post, hpre, _, _⟩ := findFreeSize_some hf
    have hb := hw b (by rw [hpre]; simp)
    obtain ⟨v, hv, hp⟩ := carve_mem { st with free_list := fl } b (effSize s)
    rw [← hc] at hv hp
    exact ⟨b.addr, v, hb.1, hp, hv⟩
  · obtain ⟨v, hv, hp⟩ := carve_mem
      { st with calls := st.calls ++ [Syscall.mmap PAGE_SIZE (sys_mmap PAGE_SIZE fresh)] }
      ⟨sys_mmap PAGE_SIZE fresh, PAGE_SIZE⟩ (effSize s)
    rw [← hc] at hv hp
    exact ⟨sys_mmap PAGE_SIZE fresh, v, sys_mmap_lt, hp, hv⟩
  · exact ⟨_, _, sys_mmap_lt, hp, by rw [hst]⟩

theorem myfree_calls (st : Heap) (p : Nat) :
    ∃ more, (myfree st p).calls = st.calls ++ more ∧ ∀ x, ¬ mapped more x := by
  unfold myfree
  split
  · exact ⟨[], by simp, fun x hx => by obtain ⟨c, hc, _⟩ := hx; cases hc⟩
  · simp only
    split
    · exact ⟨[], by simp, fun x hx => by obtain ⟨c, hc, _⟩ := hx; cases hc⟩
    · refine ⟨_, rfl, ?_⟩
      intro x hx
      obtain ⟨c, hc, hxc⟩ := hx
      rw [List.mem_singleton] at hc
      subst hc
      exact hxc

theorem heapInv_transfer (st st' : Heap) {L : List free_list_elm}
    (hfl : st'.free_list = st.free_list) (hcalls : ∃ more, st'.calls = st.calls ++ more)
    (h : HeapInv st L) : HeapInv st' L := by
  obtain ⟨more, hmore⟩ := hcalls
  refine ⟨by rw [hfl]; exact h.sep, by rw [hfl]; exact h.big, ?_, ?_, by rw [hfl]; exact h.apart,
    h.lsep⟩
  · intro x hx
    rw [hfl] at hx
    rw [hmore]
    exact mapped_mono (h.fmap x hx)
  · intro x hx
    rw [hmore]
    exact mapped_mono (h.lmap x hx)

/-- Taking one block out of the live blocks keeps the heap invariant; the block is
mapped, and disjoint from the free list and from the other live blocks. -/
theorem heapInv_remove_live {st : Heap} {L1 L2 : List free_list_elm} {b : free_list_elm}
    (h : HeapInv st (L1 ++ b :: L2)) :
    HeapInv st (L1 ++ L2) ∧ (∀ x, inBlock x b → ¬ covers (L1 ++ L2) x) ∧
      (∀ x, inBlock x b → mapped st.calls x) ∧ (∀ x, inBlock x b → ¬ covers st.free_list x) := by
  have hsub : ∀ x, covers (L1 ++ L2) x → covers (L1 ++ b :: L2) x := by
    intro x hx
    rw [covers_append] at hx ⊢
    rcases hx with hx | hx
    · exact Or.inl hx
    · exact Or.inr (Or.inr hx)
  have hin : ∀ x, inBlock x b → covers (L1 ++ b :: L2) x := by
    intro x hx
    rw [covers_append]
    exact Or.inr (Or.inl hx)
  have hpw := h.lsep
  rw [List.pairwise_append, List.pairwise_cons] at hpw
  obtain ⟨hp1, ⟨hb2, hp2⟩, hcross⟩ := hpw
  refine ⟨⟨h.sep, h.big, h.fmap, fun x hx => h.lmap x (hsub x hx),
    fun x hx => h.apart x (hsub x hx), ?_⟩, ?_, fun x hx => h.lmap x (hin x hx),
    fun x hx => h.apart x (hin x hx)⟩
  · rw [List.pairwise_append]
    exact ⟨hp1, hp2, fun a ha c hc => hcross a ha c (List.mem_cons_of_mem _ hc)⟩
  · intro x hx hcov
    rw [covers_append, covers_iff_exists, covers_iff_exists] at hcov
    rcases hcov with ⟨c, hc, hxc⟩ | ⟨c, hc, hxc⟩
    · exact hcross c hc b (List.mem_cons_self _ _)
        ((overlaps_iff_common_byte _ _).2 ⟨x, hxc, hx⟩)
    · exact hb2 c hc ((overlaps_iff_common_byte _ _).2 ⟨x, hx, hxc⟩)

/-- A returning `mymalloc` call keeps the invariant; its pointer becomes live. -/
theorem sysInv_malloc {st : Heap} {live : List Nat} {s : Nat} {fresh : Option Nat}
    {p : Nat} {st1 : Heap} (hs : SysInv st live)
    (h : mymalloc st s fresh = Outcome.ok (p, st1)) (hmaps : freshMaps st1.calls) :
    SysInv st1 (p :: live) := by
  obtain ⟨nb, hinv1, h16, hnsp, hp, hl, _⟩ := mymalloc_step hs.heap h hmaps
  have hw : machineWords st.free_list := by
    intro b hb
    have := (hs.heap.big b hb).2
    unfold inSpace at this
    omega
  obtain ⟨a, v, ha, hpa, hmem⟩ := mymalloc_mem hw h
  unfold inSpace at hnsp
  have hanb : a = nb.addr := by omega
  subst hanb
  have hnew : blockOf st1 p = nb := by
    unfold blockOf
    rw [show (p + 2 ^ 64 - 8) % 2 ^ 64 = nb.addr by omega, hl]
  have hold : ∀ q ∈ live, blockOf st1 q = blockOf st q := by
    intro q hq
    have hq4 := hs.ptr q hq
    have hno := (List.pairwise_cons.1 hinv1.lsep).1 (blockOf st q) (List.mem_map_of_mem _ hq)
    unfold overlaps at hno
    unfold inSpace at hq4
    have hqa : (blockOf st q).addr = (q + 2 ^ 64 - 8) % 2 ^ 64 := rfl
    unfold blockOf
    rw [hmem, load64_store64_other _ _ _ _ (by omega)]
  have hmap : (p :: live).map (blockOf st1) = nb :: live.map (blockOf st) := by
    rw [List.map_cons, hnew, List.map_congr_left hold]
  refine ⟨by rw [hmap]; exact hinv1, ?_⟩
  intro q hq
  rcases List.mem_cons.1 hq with hq | hq
  · subst hq
    rw [hnew]
    exact ⟨by omega, by omega, h16, hnsp⟩
  · rw [hold q hq]
    exact hs.ptr q hq

/-- A `myfree` call on a live pointer keeps the invariant; the pointer stops being
live. -/
theorem sysInv_free {st : Heap} {live : List Nat} {p : Nat} (hs : SysInv st live)
    (hp : p ∈ live) : SysInv (myfree st p) (live.erase p) := by
  obtain ⟨l1, l2, _, hlive, herase⟩ := List.exists_erase_eq hp
  obtain ⟨hp8, hp64, hb16, hbsp⟩ := hs.ptr p hp
  have hmemeq : (myfree st p).mem = st.mem := by
    unfold myfree
    split
    · rfl
    · simp only
      split <;> rfl
  have hblk : ∀ q, blockOf (myfree st p) q = blockOf st q := by
    intro q
    unfold blockOf
    rw [hmemeq]
  have hmap : (live.erase p).map (blockOf (myfree st p))
      = l1.map (blockOf st) ++ l2.map (blockOf st) := by
    rw [herase, List.map_append]
    congr 1 <;> exact List.map_congr_left (fun q _ => hblk q)
  have hheap := hs.heap
  rw [hlive, List.map_append, List.map_cons] at hheap
  obtain ⟨hrem, hbl, hbm, hbf⟩ := heapInv_remove_live hheap
  refine ⟨?_, ?_⟩
  · rw [hmap]
    by_cases hsm : (blockOf st p).size < PAGE_SIZE
    · rw [myfree_small (by omega) hsm]
      have hno : ∀ c ∈ st.free_list, ¬ overlaps (blockOf st p) c := by
        intro c hc hov
        obtain ⟨x, hx1, hx2⟩ := (overlaps_iff_common_byte _ _).1 hov
        exact hbf x hx1 ((covers_iff_exists _ _).2 ⟨c, hc, hx2⟩)
      obtain ⟨hsep, hpos, hcov, _, hbig, _⟩ := addFreeList_spec (blockOf st p) (by omega) hbsp
        st.free_list hrem.sep
        (fun c hc => ⟨by have := (hrem.big c hc).1; omega, (hrem.big c hc).2⟩) hno
      refine ⟨hsep, fun c hc => ⟨hbig 16 hb16 (fun d hd => (hrem.big d hd).1) c hc,
        (hpos c hc).2⟩, ?_, hrem.lmap, ?_, hrem.lsep⟩
      · intro x hx
        rcases (hcov x).1 hx with hx | hx
        · exact hbm x hx
        · exact hrem.fmap x hx
      · intro x hx hfx
        rcases (hcov x).1 hfx with hfx | hfx
        · exact hbl x hfx hx
        · exact hrem.apart x hx hfx
    · rw [myfree_large (by omega) hsm]
      exact heapInv_transfer st _ rfl ⟨_, rfl⟩ hrem
  · intro q hq
    rw [hblk]
    exact hs.ptr q (List.mem_of_mem_erase hq)

theorem runOps_calls : ∀ (ops : List Op) (st : Heap) (live : List Nat) (st2 : Heap)
    (live2 : List Nat), runOps st live ops = some (st2, live2) →
    ∃ more, st2.calls = st.calls ++ more := by
  intro ops
  induction ops with
  | nil =>
    intro st live st2 live2 h
    rw [runOps] at h
    have := congrArg Prod.fst (Option.some.inj h)
    simp only at this
    subst this
    exact ⟨[], by simp⟩
  | cons op rest ih =>
    intro st live st2 live2 h
    cases op with
    | malloc s fresh =>
      rw [runOps] at h
      rcases hm : mymalloc st s fresh with ⟨p, st1⟩ | a
      · rw [hm] at h
        simp only at h
        obtain ⟨m1, h1⟩ := mymalloc_calls hm
        obtain ⟨m2, h2⟩ := ih st1 (p :: live) st2 live2 h
        exact ⟨m1 ++ m2, by rw [h2, h1, List.append_assoc]⟩
      · rw [hm] at h
        cases h
    | free p =>
      rw [runOps] at h
      by_cases hp : p ∈ live
      · rw [if_pos hp] at h
        obtain ⟨m1, h1, _⟩ := myfree_calls st p
        obtain ⟨m2, h2⟩ := ih (myfree st p) (live.erase p) st2 live2 h
        exact ⟨m1 ++ m2, by rw [h2, h1, List.append_assoc]⟩
      · rw [if_neg hp] at h
        cases h

/-- Every run keeps the invariant, provided the regions `mmap` returned during the run
are in the address space and pairwise disjoint. -/
theorem runOps_inv : ∀ (ops : List Op) (st : Heap) (live : List Nat) (st2 : Heap)
    (live2 : List Nat), SysInv st live → runOps st live ops = some (st2, live2) →
    freshMaps st2.calls → SysInv st2 live2 := by
  intro ops
  induction ops with
  | nil =>
    intro st live st2 live2 hs h _
    rw [runOps] at h
    have h2 := Option.some.inj h
    have h3 : st = st2 := congrArg Prod.fst h2
    have h4 : live = live2 := congrArg Prod.snd h2
    subst h3 h4
    exact hs
  | cons op rest ih =>
    intro st live st2 live2 hs h hmaps
    cases op with
    | malloc s fresh =>
      rw [runOps] at h
      rcases hm : mymalloc st s fresh with ⟨p, st1⟩ | a
      · rw [hm] at h
        simp only at h
        obtain ⟨more, hmore⟩ := runOps_calls rest st1 (p :: live) st2 live2 h
        have hmaps1 : freshMaps st1.calls := by
          rw [hmore] at hmaps
          exact freshMaps_prefix hmaps
        exact ih st1 (p :: live) st2 live2 (sysInv_malloc hs hm hmaps1) h hmaps
      · rw [hm] at h
        cases h
    | free p =>
      rw [runOps] at h
      by_cases hp : p ∈ live
      · rw [if_pos hp] at h
        exact ih (myfree st p) (live.erase p) st2 live2 (sysInv_free hs hp) h hmaps
      · rw [if_neg hp] at h
        cases h

theorem sysInv_init (mem : Nat → Nat) : SysInv ⟨[], mem, []⟩ [] := by
  refine ⟨⟨trivial, ?_, ?_, ?_, ?_, List.Pairwise.nil⟩, ?_⟩
  · intro b hb
    cases hb
  · intro x hx
    exact hx.elim
  · intro x hx
    exact hx.elim
  · intro x hx
    exact hx.elim
  · intro p hp
    cases hp

/-- On the sub-page path `mymalloc` returns what the carve step makes of the
candidate: the first fit of the free list, or a fresh page. -/
theorem mymalloc_of_candidate (st : Heap) (s : Nat) (fresh : Option Nat) (a n : Nat)
    (fl1 : List free_list_elm) (calls1 : List Syscall) (he : effSize s < PAGE_SIZE)
    (hcand :
      (findFreeSize st.free_list (effSize s) = (some ⟨a, n⟩, fl1) ∧ calls1 = st.calls) ∨
      (findFreeSize st.free_list (effSize s) = (none, fl1) ∧
        sys_mmap PAGE_SIZE fresh = a ∧ a ≠ MAP_FAILED ∧ n = PAGE_SIZE ∧
        calls1 = st.calls ++ [Syscall.mmap PAGE_SIZE a])) :
    mymalloc st s fresh = Outcome.ok
      (carve { free_list := fl1, mem := st.mem, calls := calls1 } ⟨a, n⟩ (effSize s)) := by
  unfold mymalloc
  simp only
  rw [if_pos he]
  rcases hcand with ⟨hf, hc⟩ | ⟨hf, hm, hne, hn, hc⟩
  · rw [hf]
    simp only
    rw [hc]
  · rw [hf]
    simp only
    have hfl := findFreeSize_none hf
    rw [hm, if_neg hne, hc, hfl, hn]

theorem firstUnmapped_none {calls : List Syscall} :
    ∀ {n a : Nat}, firstUnmapped calls n a = none → ∀ i, i < n → mapped calls (a + i) := by
  intro n
  induction n with
  | zero =>
    intro a _ i hi
    omega
  | succ k ih =>
    intro a h i hi
    rw [firstUnmapped] at h
    by_cases hm : mapped calls a
    · rw [if_pos hm] at h
      cases i with
      | zero => exact hm
      | succ j =>
        have := ih h j (by omega)
        rw [show a + (j + 1) = a + 1 + j by omega]
        exact this
    · rw [if_neg hm] at h
      cases h

/-! ## The claims -/

/-- C1: `addFreeList` preserves the free-list invariant.  For every free list (of free
blocks: each of at least 16 bytes, the size of a node, and inside the address
space) that is strictly address-sorted with every block ending strictly below the
start of the next one, and for every block `toAdd` of size at least 16 that
overlaps no block of the list, the list returned by `addFreeList` is again strictly
address-sorted with no adjacent and no overlapping pair. -/
theorem addFreeList_preserves_invariant (fl : List free_list_elm) (toAdd : free_list_elm)
    (hsep : separated fl) (hbig : ∀ b ∈ fl, 16 ≤ b.size) (hsp : ∀ b ∈ fl, inSpace b)
    (hts : inSpace toAdd) (h16 : 16 ≤ toAdd.size) (hno : ∀ b ∈ fl, ¬ overlaps toAdd b) :
    separated (addFreeList fl toAdd) :=
  (addFreeList_spec toAdd (by omega) hts fl hsep
    (fun b hb => ⟨by have := hbig b hb; omega, hsp b hb⟩) hno).1

/-- Witness for C1: a block adjacent to the first block of a two-block list. -/
theorem addFreeList_preserves_invariant_witness :
    separated (addFreeList [⟨4096, 32⟩, ⟨8192, 64⟩] ⟨4128, 16⟩) :=
  addFreeList_preserves_invariant [⟨4096, 32⟩, ⟨8192, 64⟩] ⟨4128, 16⟩
    (by decide) (by decide) (by decide) (by decide) (by decide) (by decide)

/-- C2: no overlap.  Starting from an empty free list with nothing mapped, and with
every region the mapping primitive returned lying in the address space and disjoint
from all regions it returned before, the payload regions of the pointers returned
by any finite sequence of `mymalloc` calls (no `myfree` in between) are pairwise
disjoint. -/
theorem mymalloc_payloads_disjoint (mem : Nat → Nat) (reqs : List (Nat × Option Nat))
    (regions : List (Nat × Nat)) (st2 : Heap)
    (h : mallocSeq ⟨[], mem, []⟩ reqs = Outcome.ok (regions, st2))
    (hmaps : freshMaps st2.calls) :
    regions.Pairwise regionsDisjoint := by
  have hinv : HeapInv ⟨[], mem, []⟩ [] := by
    refine ⟨trivial, ?_, ?_, ?_, ?_, List.Pairwise.nil⟩
    · intro b hb
      cases hb
    · intro x hx
      exact hx.elim
    · intro x hx
      exact hx.elim
    · intro x hx
      exact hx.elim
  exact (mallocSeq_disjoint reqs _ [] regions st2 hinv h hmaps).1

/-- Witness for C2: five requests, served from a fresh page, from the residual of
that page, from a two-page mapping, from a second page, and again from the first
residual. -/
theorem mymalloc_payloads_disjoint_witness :
    ∃ st2, mallocSeq ⟨[], fun _ => 0, []⟩
        [(100, some 8192), (200, none), (5000, some 65536), (4000, some 16384), (0, none)]
      = Outcome.ok
          ([(8200, 8300), (8308, 8508), (65544, 73728), (16392, 20392), (8516, 8524)], st2) ∧
      List.Pairwise regionsDisjoint
        [(8200, 8300), (8308, 8508), (65544, 73728), (16392, 20392), (8516, 8524)] :=
  ⟨_, rfl, mymalloc_payloads_disjoint (fun _ => 0)
    [(100, some 8192), (200, none), (5000, some 65536), (4000, some 16384), (0, none)]
    _ _ rfl (by decide)⟩

/-- C3 (as amended): for every request `s` whose effective size `s + 8` does not wrap
and whose page count fits the `int` it is stored in (`s + 8 ≤ (2^31 - 1) * 4096`),
the header recorded in front of the pointer `mymalloc(s)` returns is at least
`s + 8`. -/
theorem mymalloc_header_holds_request (st : Heap) (s : Nat) (fresh : Option Nat)
    (p : Nat) (st1 : Heap) (hfl : machineWords st.free_list)
    (hs : s + 8 ≤ (2 ^ 31 - 1) * PAGE_SIZE)
    (h : mymalloc st s fresh = Outcome.ok (p, st1)) :
    s + 8 ≤ load64 st1.mem ((p + 2 ^ 64 - 8) % 2 ^ 64) := by
  have hs8 : s + 8 < 2 ^ 64 := by rw [PAGE_SIZE_eq] at hs; omega
  have hes : s + 8 ≤ effSize s := by rw [effSize_eq hs8]; split <;> omega
  rcases mymalloc_cases h with ⟨_, b, fl, hf, hc⟩ | ⟨he, _, hm, hc⟩ | ⟨he, hm, hp, hst⟩
  · obtain ⟨pre, post, hpre, _, hbs⟩ := findFreeSize_some hf
    have hb := hfl b (by rw [hpre]; simp)
    have hch := carve_header { st with free_list := fl } b (effSize s) hb.1 hb.2 hbs
    rw [← hc] at hch
    simp only at hch
    rw [hch.1]
    omega
  · have hch := carve_header
      { st with calls := st.calls ++ [Syscall.mmap PAGE_SIZE (sys_mmap PAGE_SIZE fresh)] }
      ⟨sys_mmap PAGE_SIZE fresh, PAGE_SIZE⟩ (effSize s)
      (show sys_mmap PAGE_SIZE fresh < 2 ^ 64 from sys_mmap_lt)
      (show PAGE_SIZE < 2 ^ 64 by decide) (Nat.le_of_lt he)
    rw [← hc] at hch
    simp only at hch
    rw [hch.1]
    omega
  · rw [PAGE_SIZE_eq] at he hs
    have hr : sys_mmap (largeLen (effSize s)) fresh < 2 ^ 64 := sys_mmap_lt
    have hd := divide_page (effSize s)
    have he2 : effSize s = s + 8 := by
      rw [effSize_eq hs8] at he ⊢
      have h16 : ¬ s + 8 < 16 := by
        intro hh
        rw [if_pos hh] at he
        omega
      rw [if_neg h16]
    rw [PAGE_SIZE_eq] at hd
    have hpg : divide (effSize s) PAGE_SIZE < 2 ^ 31 := by
      rw [PAGE_SIZE_eq]
      omega
    have hlen := largeLen_eq hpg
    rw [hp, hst]
    simp only
    rw [show (((sys_mmap (largeLen (effSize s)) fresh + 8) % 2 ^ 64 + 2 ^ 64 - 8) % 2 ^ 64)
      = sys_mmap (largeLen (effSize s)) fresh by omega]
    rw [load64_store64 _ _ _ (largeLen_mod _).2, hlen, PAGE_SIZE_eq]
    omega

/-- Witness for C3: a request of 100 bytes served from a fresh page at 8192; the
header records 108. -/
theorem mymalloc_header_holds_request_witness :
    mymalloc ⟨[], fun _ => 0, []⟩ 100 (some 8192)
      = Outcome.ok (8200,
          ⟨[⟨8300, 3988⟩], store64 (fun _ => 0) 8192 108, [Syscall.mmap 4096 8192]⟩) ∧
    100 + 8 ≤ load64 (store64 (fun _ => 0) 8192 108) ((8200 + 2 ^ 64 - 8) % 2 ^ 64) :=
  ⟨rfl, mymalloc_header_holds_request ⟨[], fun _ => 0, []⟩ 100 (some 8192) 8200
    ⟨[⟨8300, 3988⟩], store64 (fun _ => 0) 8192 108, [Syscall.mmap 4096 8192]⟩
    (by intro b hb; cases hb) (by decide) rfl⟩

/-- C3 as stated fails for `s = 2^64 - 1`: `s + 8` wraps to 7, the effective size is
16 and the block handed out records a size of 16. -/
theorem mymalloc_header_counterexample :
    ¬ ∀ (st : Heap) (s : Nat) (fresh : Option Nat) (p : Nat) (st1 : Heap),
      machineWords st.free_list → s < 2 ^ 64 →
      mymalloc st s fresh = Outcome.ok (p, st1) →
      s + 8 ≤ load64 st1.mem ((p + 2 ^ 64 - 8) % 2 ^ 64) := by
  intro h
  have h1 := h ⟨[], fun _ => 0, []⟩ 18446744073709551615 (some 8192) _ _
    (by intro b hb; cases hb) (by decide) rfl
  revert h1
  decide

/-- C4: `findFreeSize` is first-fit in list order.  If some block has size at least
`s`, the list splits as `pre ++ b :: post` with every block of `pre` smaller than
`s` and `b.size ≥ s`, the function returns `b` and the list becomes `pre ++ post`;
if no block has size at least `s`, it returns nothing and the list is unchanged. -/
theorem findFreeSize_first_fit (fl : List free_list_elm) (s : Nat) :
    ((∃ b ∈ fl, s ≤ b.size) →
      ∃ pre b post, fl = pre ++ b :: post ∧ (∀ x ∈ pre, x.size < s) ∧ s ≤ b.size ∧
        findFreeSize fl s = (some b, pre ++ post)) ∧
    ((∀ b ∈ fl, b.size < s) → findFreeSize fl s = (none, fl)) := by
  induction fl with
  | nil =>
    constructor
    · rintro ⟨b, hb, _⟩
      cases hb
    · intro _
      rfl
  | cons cur rest ih =>
    constructor
    · rintro ⟨b, hb, hbs⟩
      by_cases hc : cur.size < s
      · have hex : ∃ b ∈ rest, s ≤ b.size := by
          rcases List.mem_cons.1 hb with hb | hb
          · subst hb
            omega
          · exact ⟨b, hb, hbs⟩
        obtain ⟨pre, b2, post, hfl, hpre, hb2, hfind⟩ := ih.1 hex
        refine ⟨cur :: pre, b2, post, ?_, ?_, hb2, ?_⟩
        · rw [hfl]
          rfl
        · intro x hx
          rcases List.mem_cons.1 hx with hx | hx
          · subst hx
            exact hc
          · exact hpre x hx
        · rw [findFreeSize, if_pos hc, hfind]
          rfl
      · refine ⟨[], cur, rest, rfl, ?_, by omega, ?_⟩
        · intro x hx
          cases hx
        · rw [findFreeSize, if_neg hc]
          rfl
    · intro hall
      have hc : cur.size < s := hall cur (List.mem_cons_self _ _)
      rw [findFreeSize, if_pos hc, ih.2 (fun b hb => hall b (List.mem_cons_of_mem _ hb))]

/-- Witness for C4: the first fit for 48 in a three-block list is its second block,
although the third one would fit as well. -/
theorem findFreeSize_first_fit_witness :
    ∃ pre b post, ([⟨4096, 32⟩, ⟨8192, 64⟩, ⟨12288, 48⟩] : List free_list_elm)
        = pre ++ b :: post ∧ (∀ x ∈ pre, x.size < 48) ∧ 48 ≤ b.size ∧
      findFreeSize [⟨4096, 32⟩, ⟨8192, 64⟩, ⟨12288, 48⟩] 48 = (some b, pre ++ post) :=
  (findFreeSize_first_fit [⟨4096, 32⟩, ⟨8192, 64⟩, ⟨12288, 48⟩] 48).1
    ⟨⟨8192, 64⟩, by decide, by decide⟩

/-- C5: carving on the sub-page path.  With `e = max (s + 8) 16 < PAGE_SIZE` and the
candidate block at `a` of size `n` (the first fit of the free list, or a fresh page
with `n = 4096`), lying in the address space with a size below `2^63`: if
`n - e ≥ 16` the block handed out records exactly `e`, the residual block at `a + e`
of size `n - e` is inserted into the free list, and `e + (n - e) = n`; otherwise
nothing is inserted and the block keeps the recorded size `n`.  The returned
pointer is `a + 8` in both cases. -/
theorem mymalloc_carve (st : Heap) (s : Nat) (fresh : Option Nat) (a n : Nat)
    (fl1 : List free_list_elm) (calls1 : List Syscall)
    (he : max (s + 8) 16 < PAGE_SIZE)
    (hcand :
      (findFreeSize st.free_list (max (s + 8) 16) = (some ⟨a, n⟩, fl1) ∧ calls1 = st.calls) ∨
      (findFreeSize st.free_list (max (s + 8) 16) = (none, fl1) ∧
        sys_mmap PAGE_SIZE fresh = a ∧ a ≠ MAP_FAILED ∧ n = PAGE_SIZE ∧
        calls1 = st.calls ++ [Syscall.mmap PAGE_SIZE a]))
    (hsp : inSpace ⟨a, n⟩) (hn : n < 2 ^ 63) :
    max (s + 8) 16 ≤ n ∧
    (16 ≤ n - max (s + 8) 16 →
      mymalloc st s fresh = Outcome.ok (a + 8,
        { free_list := addFreeList fl1 ⟨a + max (s + 8) 16, n - max (s + 8) 16⟩,
          mem := store64 st.mem a (max (s + 8) 16), calls := calls1 }) ∧
      load64 (store64 st.mem a (max (s + 8) 16)) a = max (s + 8) 16 ∧
      max (s + 8) 16 + (n - max (s + 8) 16) = n) ∧
    (n - max (s + 8) 16 < 16 →
      mymalloc st s fresh = Outcome.ok (a + 8,
        { free_list := fl1, mem := store64 st.mem a n, calls := calls1 }) ∧
      load64 (store64 st.mem a n) a = n) := by
  rw [PAGE_SIZE_eq] at he
  unfold inSpace at hsp
  simp only at hsp
  have hs8 : s + 8 < 2 ^ 64 := by omega
  have hes : effSize s = max (s + 8) 16 := by
    rw [effSize_eq hs8]
    split <;> omega
  have hle : max (s + 8) 16 ≤ n := by
    rcases hcand with ⟨hf, _⟩ | ⟨_, _, _, hn4, _⟩
    · obtain ⟨_, _, _, _, hb⟩ := findFreeSize_some hf
      exact hb
    · rw [hn4, PAGE_SIZE_eq]; omega
  have hmm : ∀ q : Nat × Heap,
      carve { free_list := fl1, mem := st.mem, calls := calls1 } ⟨a, n⟩ (max (s + 8) 16) = q →
      mymalloc st s fresh = Outcome.ok q := by
    intro q hq
    unfold mymalloc
    simp only
    rw [hes, if_pos (by rw [PAGE_SIZE_eq]; exact he)]
    rcases hcand with ⟨hf, hc⟩ | ⟨hf, hm, hne, _, hc⟩
    · rw [hf]
      simp only
      rw [← hq, hc]
    · rw [hf]
      simp only
      have hfl := findFreeSize_none hf
      rw [hm, if_neg hne, ← hq, hc, hfl]
      subst_vars
      rfl
  refine ⟨hle, ?_, ?_⟩
  · intro h16
    refine ⟨hmm _ (carve_split _ a n _ hsp hn (by omega)), ?_, by omega⟩
    exact load64_store64 _ _ _ (by omega)
  · intro h16
    refine ⟨hmm _ (carve_whole _ a n _ hsp (by omega) hle (by omega)), ?_⟩
    exact load64_store64 _ _ _ (by omega)

/-- Witness for C5: `mymalloc(0)` on an empty free list uses `e = 16`, takes a fresh
page at 8192, hands out the pointer 8200 with a recorded size of 16 and inserts the
residual block `(8208, 4080)`. -/
theorem mymalloc_carve_witness :
    mymalloc ⟨[], fun _ => 0, []⟩ 0 (some 8192) = Outcome.ok (8200,
      { free_list := [⟨8208, 4080⟩],
        mem := store64 (fun _ => 0) 8192 16, calls := [Syscall.mmap 4096 8192] }) ∧
    load64 (store64 (fun _ => 0) 8192 16) 8192 = 16 ∧ 16 + 4080 = 4096 :=
  (mymalloc_carve ⟨[], fun _ => 0, []⟩ 0 (some 8192) 8192 4096 [] [Syscall.mmap 4096 8192]
    (by decide) (Or.inr ⟨rfl, rfl, by decide, rfl, rfl⟩) (by decide) (by decide)).2.1
    (by decide)

/-- C6 (as amended): for every request whose effective size `e = s + 8` is at least
`PAGE_SIZE` and whose page count fits the `int` it is stored in
(`e ≤ (2^31 - 1) * 4096`), when the mapping primitive returns the region start `b`
(the region lying in the address space), `mymalloc` asks it for exactly
`ceil(e / 4096) * 4096` bytes, the smallest multiple of the page size that is at
least `e`, records that value in the header and returns `b + 8`. -/
theorem mymalloc_large_page_rounding (st : Heap) (s b : Nat)
    (he : PAGE_SIZE ≤ s + 8) (hpg : s + 8 ≤ (2 ^ 31 - 1) * PAGE_SIZE)
    (hb : b + (s + 8 + 4095) / 4096 * 4096 < 2 ^ 64) :
    mymalloc st s (some b) = Outcome.ok (b + 8,
      { free_list := st.free_list,
        mem := store64 st.mem b ((s + 8 + 4095) / 4096 * 4096),
        calls := st.calls ++ [Syscall.mmap ((s + 8 + 4095) / 4096 * 4096) b] }) ∧
    largeLen (effSize s) = (s + 8 + 4095) / 4096 * 4096 ∧
    load64 (store64 st.mem b ((s + 8 + 4095) / 4096 * 4096)) b = (s + 8 + 4095) / 4096 * 4096 ∧
    s + 8 ≤ (s + 8 + 4095) / 4096 * 4096 ∧
    (∀ k, s + 8 ≤ k * 4096 → (s + 8 + 4095) / 4096 * 4096 ≤ k * 4096) := by
  rw [PAGE_SIZE_eq] at he hpg
  have hs8 : s + 8 < 2 ^ 64 := by omega
  have hes : effSize s = s + 8 := by
    rw [effSize_eq hs8, if_neg (by omega)]
  have hd : divide (s + 8) PAGE_SIZE = (s + 8 + 4095) / 4096 := by
    unfold divide
    rw [PAGE_SIZE_eq]
    simp only
    split <;> omega
  have hlen : largeLen (s + 8) = (s + 8 + 4095) / 4096 * 4096 := by
    rw [largeLen_eq (by rw [hd]; omega), hd, PAGE_SIZE_eq]
  have hmm : sys_mmap ((s + 8 + 4095) / 4096 * 4096) (some b) = b := by
    unfold sys_mmap
    rw [if_neg (by omega)]
    simp only
    omega
  refine ⟨?_, by rw [hes, hlen], load64_store64 _ _ _ (by omega), by omega, ?_⟩
  · rw [mymalloc_large st s (some b) (by rw [hes, PAGE_SIZE_eq]; exact he), hes, hlen, hmm,
      if_neg (by unfold MAP_FAILED; omega), show (b + 8) % 2 ^ 64 = b + 8 by omega]
  · intro k hk
    omega

/-- Witness for C6: a request of 5000 bytes maps two pages. -/
theorem mymalloc_large_page_rounding_witness :
    mymalloc ⟨[], fun _ => 0, []⟩ 5000 (some 65536) = Outcome.ok (65536 + 8,
      { free_list := [],
        mem := store64 (fun _ => 0) 65536 ((5000 + 8 + 4095) / 4096 * 4096),
        calls := [] ++ [Syscall.mmap ((5000 + 8 + 4095) / 4096 * 4096) 65536] }) ∧
    largeLen (effSize 5000) = (5000 + 8 + 4095) / 4096 * 4096 ∧
    load64 (store64 (fun _ => 0) 65536 ((5000 + 8 + 4095) / 4096 * 4096)) 65536
      = (5000 + 8 + 4095) / 4096 * 4096 ∧
    5000 + 8 ≤ (5000 + 8 + 4095) / 4096 * 4096 ∧
    (∀ k, 5000 + 8 ≤ k * 4096 → (5000 + 8 + 4095) / 4096 * 4096 ≤ k * 4096) :=
  mymalloc_large_page_rounding ⟨[], fun _ => 0, []⟩ 5000 65536 (by decide) (by decide)
    (by decide)

/-- C6 as stated fails for `e = 2^64 - 1` (`s = 2^64 - 9`): the smallest multiple of
the page size that is at least `e` is `2^64`, which no `size_t` holds; the length
passed to `mmap` is 0, so the mapping fails and `mymalloc` faults. -/
theorem mymalloc_large_page_rounding_counterexample :
    ¬ ∀ (st : Heap) (s b : Nat), s + 8 < 2 ^ 64 → PAGE_SIZE ≤ s + 8 → b < 2 ^ 63 →
      largeLen (effSize s) = (s + 8 + 4095) / 4096 * 4096 ∨
      mymalloc st s (some b) = Outcome.ok (b + 8,
        { free_list := st.free_list,
          mem := store64 st.mem b ((s + 8 + 4095) / 4096 * 4096),
          calls := st.calls ++ [Syscall.mmap ((s + 8 + 4095) / 4096 * 4096) b] }) := by
  intro h
  have h1 := h ⟨[], fun _ => 0, []⟩ 18446744073709551607 65536 (by decide) (by decide)
    (by decide)
  have h2 : mymalloc ⟨[], fun _ => 0, []⟩ 18446744073709551607 (some 65536)
      = Outcome.fault MAP_FAILED := rfl
  have h3 : largeLen (effSize 18446744073709551607) = 0 := by decide
  rw [h2, h3] at h1
  rcases h1 with h1 | h1
  · revert h1
    decide
  · cases h1

/-- C7: large-allocation bypass.  For every request whose effective size
`e = s + 8` (as a `size_t`) is at least `PAGE_SIZE`, a returning `mymalloc` leaves
the free list as it was, its result does not depend on the free list, the block
comes from a mapping made by this call, and `myfree` of the returned pointer leaves
the free list unchanged. -/
theorem mymalloc_large_bypasses_free_list (st : Heap) (s : Nat) (fresh : Option Nat)
    (p : Nat) (st1 : Heap) (he : PAGE_SIZE ≤ (s + 8) % 2 ^ 64)
    (h : mymalloc st s fresh = Outcome.ok (p, st1)) :
    st1.free_list = st.free_list ∧
    (∀ fl : List free_list_elm,
      mymalloc { st with free_list := fl } s fresh
        = Outcome.ok (p, { st1 with free_list := fl })) ∧
    (∃ len r, st1.calls = st.calls ++ [Syscall.mmap len r] ∧ p = (r + 8) % 2 ^ 64) ∧
    (myfree st1 p).free_list = st1.free_list := by
  rw [PAGE_SIZE_eq] at he
  have hes : PAGE_SIZE ≤ effSize s := by
    unfold effSize
    rw [PAGE_SIZE_eq]
    split <;> omega
  have hl := mymalloc_large st s fresh hes
  by_cases hm : sys_mmap (largeLen (effSize s)) fresh = MAP_FAILED
  · rw [hl, if_pos hm] at h
    cases h
  · rw [hl, if_neg hm] at h
    have h2 := Outcome.ok.inj h
    have hp : (sys_mmap (largeLen (effSize s)) fresh + 8) % 2 ^ 64 = p := congrArg Prod.fst h2
    have hst := congrArg Prod.snd h2
    simp only at hst
    subst hst
    refine ⟨rfl, ?_, ⟨_, _, rfl, hp.symm⟩, ?_⟩
    · intro fl
      rw [mymalloc_large { st with free_list := fl } s fresh hes, if_neg hm, hp]
    · have hr : sys_mmap (largeLen (effSize s)) fresh < 2 ^ 64 := sys_mmap_lt
      have hlen := largeLen_mod (effSize s)
      have hne : largeLen (effSize s) ≠ 0 := by
        intro h0
        apply hm
        unfold sys_mmap
        rw [if_pos h0]
      unfold myfree
      by_cases hp0 : p = 0
      · rw [if_pos hp0]
      · rw [if_neg hp0]
        simp only
        rw [show (p + 2 ^ 64 - 8) % 2 ^ 64 = sys_mmap (largeLen (effSize s)) fresh by omega,
          load64_store64 _ _ _ hlen.2, if_neg (by rw [PAGE_SIZE_eq]; omega)]

/-- Witness for C7: a request of 5000 bytes with a block waiting on the free list. -/
theorem mymalloc_large_bypasses_free_list_witness :
    mymalloc ⟨[⟨4096, 4096⟩], fun _ => 0, []⟩ 5000 (some 65536)
      = Outcome.ok (65544,
          ⟨[⟨4096, 4096⟩], store64 (fun _ => 0) 65536 8192, [Syscall.mmap 8192 65536]⟩) ∧
    (myfree ⟨[⟨4096, 4096⟩], store64 (fun _ => 0) 65536 8192, [Syscall.mmap 8192 65536]⟩
      65544).free_list = [⟨4096, 4096⟩] :=
  ⟨rfl, (mymalloc_large_bypasses_free_list ⟨[⟨4096, 4096⟩], fun _ => 0, []⟩ 5000
    (some 65536) 65544
    ⟨[⟨4096, 4096⟩], store64 (fun _ => 0) 65536 8192, [Syscall.mmap 8192 65536]⟩
    (by decide) rfl).2.2.2⟩

/-- C8, the code at a failing input: after `mymalloc(5000)` mapped the region
`(65536, 8192)` and returned 65544, `myfree(65544)` calls `munmap(65544, 8192)`, not
`munmap(65536, 8192)`. -/
theorem myfree_unmaps_payload_pointer :
    mymalloc ⟨[], fun _ => 0, []⟩ 5000 (some 65536)
      = Outcome.ok (65544,
          ⟨[], store64 (fun _ => 0) 65536 8192, [Syscall.mmap 8192 65536]⟩) ∧
    (myfree ⟨[], store64 (fun _ => 0) 65536 8192, [Syscall.mmap 8192 65536]⟩ 65544).calls
      = [Syscall.mmap 8192 65536, Syscall.munmap 65544 8192] := by
  refine ⟨rfl, ?_⟩
  unfold myfree
  rw [if_neg (by decide)]
  simp only
  rw [show (65544 + 2 ^ 64 - 8) % 2 ^ 64 = 65536 by decide,
    load64_store64 _ _ _ (by decide), if_neg (by decide)]
  rfl

/-- C9: two address-adjacent blocks `A` and `B` (`A + A.size = B`, both inside the
address space) inserted into the empty free list, in either order, give a free list
of exactly one block, at the address of `A`, of size `A.size + B.size`. -/
theorem addFreeList_coalesces_adjacent (A B : free_list_elm)
    (hadj : A.addr + A.size = B.addr) (hB : inSpace B) :
    addFreeList (addFreeList [] A) B = [⟨A.addr, A.size + B.size⟩] ∧
    addFreeList (addFreeList [] B) A = [⟨A.addr, A.size + B.size⟩] := by
  unfold inSpace at hB
  have h1 : (A.addr + A.size) % 2 ^ 64 = B.addr := by omega
  have h2 : (A.size + B.size) % 2 ^ 64 = A.size + B.size := by omega
  constructor
  · by_cases hlt : A.addr < B.addr
    · have heq : addFreeList [] B = B :: [] := rfl
      rw [show addFreeList [] A = [A] from rfl, addFreeList_behind hlt heq, h1,
        if_pos (Nat.le_refl _), h2]
    · have hz : A.size = 0 := by omega
      have hab : A.addr = B.addr := by omega
      rw [show addFreeList [] A = [A] from rfl, addFreeList_front hlt,
        if_pos (by omega), hz, ← hab]
      simp
      omega
  · have hlt : ¬ B.addr < A.addr := by omega
    rw [show addFreeList [] B = [B] from rfl, addFreeList_front hlt, h1,
      if_pos (Nat.le_refl _), h2]

/-- Witness for C9: the two halves of one page. -/
theorem addFreeList_coalesces_adjacent_witness :
    addFreeList (addFreeList [] ⟨4096, 2048⟩) ⟨6144, 2048⟩ = [⟨4096, 2048 + 2048⟩] ∧
    addFreeList (addFreeList [] ⟨6144, 2048⟩) ⟨4096, 2048⟩ = [⟨4096, 2048 + 2048⟩] :=
  addFreeList_coalesces_adjacent ⟨4096, 2048⟩ ⟨6144, 2048⟩ (by decide) (by decide)

/-- C10 (as amended): for every pair `(nmemb, s)` whose product does not wrap
(`nmemb * s < 2^64`) and for which `mycalloc` returns a pointer, every one of the
`nmemb * s` bytes from that pointer lies in mapped memory and reads as zero,
whatever the memory held before (recycled block or fresh page). -/
theorem mycalloc_zero_fill (st : Heap) (nmemb s : Nat) (fresh : Option Nat) (p : Nat)
    (st2 : Heap) (hmul : nmemb * s < 2 ^ 64)
    (h : mycalloc st nmemb s fresh = Outcome.ok (some p, st2)) :
    ∀ i, i < nmemb * s → st2.mem (p + i) = 0 ∧ mapped st2.calls (p + i) := by
  intro i hi
  unfold mycalloc at h
  simp only at h
  rw [Nat.mod_eq_of_lt hmul] at h
  rcases hm : mymalloc st (nmemb * s) fresh with ⟨q, st1⟩ | a
  · rw [hm] at h
    simp only at h
    rcases hu : firstUnmapped st1.calls (nmemb * s) q with _ | a
    · rw [hu] at h
      simp only at h
      by_cases hq : q = 0
      · rw [if_pos hq] at h
        cases h
      · rw [if_neg hq] at h
        have h2 := Outcome.ok.inj h
        have hp : q = p := Option.some.inj (congrArg Prod.fst h2)
        have hst := congrArg Prod.snd h2
        simp only at hst
        rw [← hst, ← hp]
        exact ⟨memset_zero _ _ _ _ hi, firstUnmapped_none hu i hi⟩
    · rw [hu] at h
      cases h
  · rw [hm] at h
    cases h

/-- Witness for C10: three elements of five bytes in a recycled block of 32 bytes
whose bytes were all 255 behind the fields of the node. -/
theorem mycalloc_zero_fill_witness :
    mycalloc
        ⟨[⟨8192, 32⟩], store64 (store64 (fun _ => 255) 8192 32) 8200 0,
          [Syscall.mmap 4096 8192]⟩ 3 5 none
      = Outcome.ok (some 8200,
          ⟨[], memset (store64 (store64 (store64 (fun _ => 255) 8192 32) 8200 0) 8192 32)
            8200 0 15, [Syscall.mmap 4096 8192]⟩) ∧
    ∀ i, i < 3 * 5 →
      memset (store64 (store64 (store64 (fun _ => 255) 8192 32) 8200 0) 8192 32)
        8200 0 15 (8200 + i) = 0 ∧ mapped [Syscall.mmap 4096 8192] (8200 + i) :=
  ⟨rfl, mycalloc_zero_fill
    ⟨[⟨8192, 32⟩], store64 (store64 (fun _ => 255) 8192 32) 8200 0, [Syscall.mmap 4096 8192]⟩
    3 5 none 8200
    ⟨[], memset (store64 (store64 (store64 (fun _ => 255) 8192 32) 8200 0) 8192 32)
      8200 0 15, [Syscall.mmap 4096 8192]⟩ (by decide) rfl⟩

/-- C10 as stated fails for `nmemb = s = 2^32`: the product wraps to 0.  The free list
holds one node of 31 bytes at 8192, laid out in memory as the program does (size 31
at 8192, null `next` at 8200), and the 15 bytes behind these fields still hold the
255 its last owner wrote.  `mymalloc(0)` hands the block out whole (31 - 16 < 16),
`memset` writes nothing, and the byte at offset 8 of the payload reads 255. -/
theorem mycalloc_zero_fill_counterexample :
    ¬ ∀ (st : Heap) (nmemb s : Nat) (fresh : Option Nat) (p : Nat) (st2 : Heap),
      nmemb < 2 ^ 64 → s < 2 ^ 64 → separated st.free_list →
      (∀ b ∈ st.free_list, 16 ≤ b.size ∧ inSpace b) → nodesInMem st.free_list st.mem →
      (∀ x, covers st.free_list x → mapped st.calls x) →
      mycalloc st nmemb s fresh = Outcome.ok (some p, st2) →
      ∀ i, i < nmemb * s → st2.mem (p + i) = 0 := by
  intro h
  have hcov : ∀ x, covers [(⟨8192, 31⟩ : free_list_elm)] x →
      mapped [Syscall.mmap 4096 8192] x := by
    intro x hx
    rcases hx with hx | hx
    · unfold inBlock at hx
      simp only at hx
      exact ⟨Syscall.mmap 4096 8192, List.mem_singleton.2 rfl, ⟨by omega, by omega⟩⟩
    · exact hx.elim
  have h1 := h
    ⟨[⟨8192, 31⟩], store64 (store64 (fun _ => 255) 8192 31) 8200 0, [Syscall.mmap 4096 8192]⟩
    4294967296 4294967296 none 8200
    ⟨[], memset (store64 (store64 (store64 (fun _ => 255) 8192 31) 8200 0) 8192 31)
      8200 0 0, [Syscall.mmap 4096 8192]⟩
    (by decide) (by decide) (by decide) (by decide) (by decide) hcov rfl 8 (by decide)
  revert h1
  decide

/-- C11, the code when the mapping fails: on an empty free list every request needs a
mapping (the fresh page of the sub-page path, or the region of the large path);
when `mmap` fails, `mymalloc` does not return to its caller at all, it stores the
size header through `MAP_FAILED`. -/
theorem mymalloc_stores_through_failed_mapping (mem : Nat → Nat) (calls : List Syscall)
    (s : Nat) :
    mymalloc ⟨[], mem, calls⟩ s none = Outcome.fault MAP_FAILED ∧
    mymalloc ⟨[], mem, calls⟩ 100 none = Outcome.fault MAP_FAILED ∧
    mymalloc ⟨[], mem, calls⟩ 5000 none = Outcome.fault MAP_FAILED := by
  have hm : ∀ len, sys_mmap len none = MAP_FAILED := by
    intro len
    unfold sys_mmap
    split <;> rfl
  have h : ∀ s', mymalloc ⟨[], mem, calls⟩ s' none = Outcome.fault MAP_FAILED := by
    intro s'
    unfold mymalloc
    simp only
    by_cases he : effSize s' < PAGE_SIZE
    · rw [if_pos he, show findFreeSize [] (effSize s') = (none, []) from rfl]
      simp only
      rw [hm, if_pos rfl]
    · rw [if_neg he, hm, if_pos rfl]
  exact ⟨h s, h 100, h 5000⟩

/-- C13: release of null is a no-op.  `myfree(NULL)` returns the state it was given,
whatever the memory holds: the free list, the memory and the list of `mmap` /
`munmap` calls are unchanged, so no header decides anything, nothing is inserted
and nothing is unmapped. -/
theorem myfree_null_noop (st : Heap) :
    myfree st 0 = st ∧ (myfree st 0).free_list = st.free_list ∧
    (myfree st 0).calls = st.calls ∧
    ∀ m : Nat → Nat, (myfree { st with mem := m } 0).free_list = st.free_list ∧
      (myfree { st with mem := m } 0).calls = st.calls := by
  have h : ∀ st' : Heap, myfree st' 0 = st' := by
    intro st'
    unfold myfree
    rw [if_pos rfl]
  refine ⟨h st, by rw [h], by rw [h], ?_⟩
  intro m
  rw [h]
  exact ⟨rfl, rfl⟩

/-- C14: minimum free-block size.  In every state reached from the empty free list by
`mymalloc` calls and `myfree` calls on live pointers (the regions `mmap` returned
lying in the address space and pairwise disjoint), every block on the free list has
a size of at least 16; and whenever the carve step inserts a residual block, that
block has a size of at least 16. -/
theorem free_blocks_hold_a_node (mem : Nat → Nat) (ops : List Op) (st2 : Heap)
    (live2 : List Nat) (h : runOps ⟨[], mem, []⟩ [] ops = some (st2, live2))
    (hmaps : freshMaps st2.calls) :
    (∀ b ∈ st2.free_list, 16 ≤ b.size) ∧
    (∀ (st : Heap) (a n e : Nat), a + n < 2 ^ 64 → e ≤ n → 16 ≤ e → e < 2 ^ 63 →
      (carve st ⟨a, n⟩ e).2.free_list = st.free_list ∨
      (16 ≤ n - e ∧
        (carve st ⟨a, n⟩ e).2.free_list = addFreeList st.free_list ⟨a + e, n - e⟩)) := by
  have hs := runOps_inv ops _ _ st2 live2 (sysInv_init mem) h hmaps
  refine ⟨fun b hb => (hs.heap.big b hb).1, ?_⟩
  intro st a n e hsp he he16 he63
  rcases carve_cases st a n e hsp he he16 he63 with ⟨h16, hc⟩ | hc
  · right
    rw [hc]
    exact ⟨by omega, rfl⟩
  · left
    rw [hc]

/-- Witness for C14: allocations and releases over three mappings; the free list ends
with the blocks `(8250, 4038)` and `(20392, 88)`. -/
theorem free_blocks_hold_a_node_witness :
    ∃ st2 live2, runOps ⟨[], fun _ => 0, []⟩ []
        [Op.malloc 100 (some 8192), Op.malloc 200 none, Op.free 8200,
          Op.malloc 4000 (some 16384), Op.free 8308, Op.malloc 5000 (some 65536),
          Op.free 65544, Op.malloc 50 none] = some (st2, live2) ∧
      st2.free_list = [⟨8250, 4038⟩, ⟨20392, 88⟩] ∧ ∀ b ∈ st2.free_list, 16 ≤ b.size :=
  ⟨_, _, rfl, rfl, (free_blocks_hold_a_node (fun _ => 0)
    [Op.malloc 100 (some 8192), Op.malloc 200 none, Op.free 8200,
      Op.malloc 4000 (some 16384), Op.free 8308, Op.malloc 5000 (some 65536),
      Op.free 65544, Op.malloc 50 none] _ _ rfl (by decide)).1⟩

/-- C15 (as amended): for every request whose effective size `e = max (s + 8) 16` is
below `PAGE_SIZE` and whose candidate block `(a, n)` (the first fit of the free list
or a fresh page, in the address space, `n < 2^63`) is carved (`n - e ≥ 16`) or is
smaller than a page, the block handed out records a size `m` with `e ≤ m < PAGE_SIZE`,
and `myfree` of the returned pointer inserts that block `(a, m)` into the free list
with `addFreeList` and makes no call of `munmap`. -/
theorem myfree_returns_sub_page_block (st : Heap) (s : Nat) (fresh : Option Nat) (a n : Nat)
    (fl1 : List free_list_elm) (calls1 : List Syscall)
    (he : max (s + 8) 16 < PAGE_SIZE)
    (hcand :
      (findFreeSize st.free_list (max (s + 8) 16) = (some ⟨a, n⟩, fl1) ∧ calls1 = st.calls) ∨
      (findFreeSize st.free_list (max (s + 8) 16) = (none, fl1) ∧
        sys_mmap PAGE_SIZE fresh = a ∧ a ≠ MAP_FAILED ∧ n = PAGE_SIZE ∧
        calls1 = st.calls ++ [Syscall.mmap PAGE_SIZE a]))
    (hsp : inSpace ⟨a, n⟩) (hn : n < 2 ^ 63)
    (hsize : 16 ≤ n - max (s + 8) 16 ∨ n < PAGE_SIZE) :
    ∃ st1 m, mymalloc st s fresh = Outcome.ok (a + 8, st1) ∧
      blockOf st1 (a + 8) = ⟨a, m⟩ ∧ max (s + 8) 16 ≤ m ∧ m < PAGE_SIZE ∧
      myfree st1 (a + 8) = { st1 with free_list := addFreeList st1.free_list ⟨a, m⟩ } ∧
      (myfree st1 (a + 8)).calls = st1.calls := by
  rw [PAGE_SIZE_eq] at he hsize
  unfold inSpace at hsp
  simp only at hsp
  have hs8 : s + 8 < 2 ^ 64 := by omega
  have hes : effSize s = max (s + 8) 16 := by
    rw [effSize_eq hs8]
    split <;> omega
  rw [← hes] at hcand hsize he
  have he16 := effSize_ge s
  have hle : effSize s ≤ n := by
    rcases hcand with ⟨hf, _⟩ | ⟨_, _, _, hn4, _⟩
    · obtain ⟨_, _, _, _, hb⟩ := findFreeSize_some hf
      exact hb
    · rw [hn4, PAGE_SIZE_eq]; omega
  have hmm := mymalloc_of_candidate st s fresh a n fl1 calls1
    (by rw [PAGE_SIZE_eq]; exact he) hcand
  rw [← hes]
  have hfin : ∀ (fl : List free_list_elm) (m : Nat), m < 4096 →
      blockOf { free_list := fl, mem := store64 st.mem a m, calls := calls1 } (a + 8) = ⟨a, m⟩ ∧
      myfree { free_list := fl, mem := store64 st.mem a m, calls := calls1 } (a + 8)
        = { free_list := addFreeList fl ⟨a, m⟩, mem := store64 st.mem a m, calls := calls1 } := by
    intro fl m hm
    have hblk : blockOf { free_list := fl, mem := store64 st.mem a m, calls := calls1 } (a + 8)
        = ⟨a, m⟩ := by
      unfold blockOf
      simp only
      rw [show (a + 8 + 2 ^ 64 - 8) % 2 ^ 64 = a by omega, load64_store64 _ _ _ (by omega)]
    refine ⟨hblk, ?_⟩
    rw [myfree_small (by omega) (by rw [hblk, PAGE_SIZE_eq]; exact hm), hblk]
  rcases carve_cases { free_list := fl1, mem := st.mem, calls := calls1 } a n (effSize s)
    hsp hle he16 (by omega) with ⟨h16, hc⟩ | hc
  · rw [hc] at hmm
    obtain ⟨hb, hf⟩ := hfin (addFreeList fl1 ⟨a + effSize s, n - effSize s⟩) (effSize s) he
    exact ⟨_, effSize s, hmm, hb, Nat.le_refl _, by rw [PAGE_SIZE_eq]; exact he, hf,
      by rw [hf]⟩
  · rw [hc] at hmm
    have hn4 : n < 4096 := by
      rcases hsize with h1 | h1
      · exfalso
        have hsplit := carve_split { free_list := fl1, mem := st.mem, calls := calls1 } a n
          (effSize s) hsp hn (by omega)
        rw [hc] at hsplit
        have hfl := congrArg (fun q : Nat × Heap => load64 q.2.mem a) hsplit
        simp only at hfl
        rw [load64_store64 _ _ _ (by omega), load64_store64 _ _ _ (by omega)] at hfl
        omega
      · exact h1
    obtain ⟨hb, hf⟩ := hfin fl1 n hn4
    exact ⟨_, n, hmm, hb, hle, by rw [PAGE_SIZE_eq]; exact hn4, hf, by rw [hf]⟩

/-- Witness for C15: `mymalloc(100)` from a fresh page at 8192 is carved; `myfree`
inserts the block `(8192, 108)`, which merges with the residual `(8300, 3988)`. -/
theorem myfree_returns_sub_page_block_witness :
    ∃ st1 m, mymalloc ⟨[], fun _ => 0, []⟩ 100 (some 8192) = Outcome.ok (8192 + 8, st1) ∧
      blockOf st1 (8192 + 8) = ⟨8192, m⟩ ∧ max (100 + 8) 16 ≤ m ∧ m < PAGE_SIZE ∧
      myfree st1 (8192 + 8) = { st1 with free_list := addFreeList st1.free_list ⟨8192, m⟩ } ∧
      (myfree st1 (8192 + 8)).calls = st1.calls :=
  myfree_returns_sub_page_block ⟨[], fun _ => 0, []⟩ 100 (some 8192) 8192 4096 []
    [Syscall.mmap 4096 8192] (by decide) (Or.inr ⟨rfl, rfl, by decide, rfl, rfl⟩)
    (by decide) (by decide) (Or.inl (by decide))

/-- C15 as stated fails for `s = 4080` on an empty free list: `e = 4088`, the fresh
page leaves a residual of 8 bytes, too small to carve, the block records 4096, and
`myfree` takes the `munmap` branch: the free list stays empty. -/
theorem myfree_sub_page_counterexample :
    ¬ ∀ (st : Heap) (s : Nat) (fresh : Option Nat) (p : Nat) (st1 : Heap),
      max (s + 8) 16 < PAGE_SIZE → mymalloc st s fresh = Outcome.ok (p, st1) →
      (myfree st1 p).free_list = addFreeList st1.free_list (blockOf st1 p) ∧
      (myfree st1 p).calls = st1.calls := by
  intro h
  have h1 := h ⟨[], fun _ => 0, []⟩ 4080 (some 8192) 8200
    ⟨[], store64 (fun _ => 0) 8192 4096, [Syscall.mmap 4096 8192]⟩ (by decide) rfl
  have h2 : (myfree ⟨[], store64 (fun _ => 0) 8192 4096, [Syscall.mmap 4096 8192]⟩ 8200).calls
      = [Syscall.mmap 4096 8192, Syscall.munmap 8200 4096] := by
    rw [myfree_large (by decide) (by decide)]
    rfl
  rw [h2] at h1
  have h3 := h1.2
  revert h3
  decide

/-- C17: heap partition.  Starting from an empty free list with nothing mapped, and
with every region `mmap` returned lying in the address space and disjoint from the
earlier ones, in every state reached by `mymalloc` calls and `myfree` calls on live
pointers the blocks of the live pointers and the blocks of the free list are
pairwise disjoint: no byte is both free and handed out, none is handed out twice. -/
theorem heap_partition (mem : Nat → Nat) (ops : List Op) (st2 : Heap) (live2 : List Nat)
    (h : runOps ⟨[], mem, []⟩ [] ops = some (st2, live2)) (hmaps : freshMaps st2.calls) :
    List.Pairwise (fun a b => ¬ overlaps a b) (live2.map (blockOf st2) ++ st2.free_list) ∧
    (∀ x, covers (live2.map (blockOf st2)) x → ¬ covers st2.free_list x) := by
  have hs := runOps_inv ops _ _ st2 live2 (sysInv_init mem) h hmaps
  refine ⟨?_, hs.heap.apart⟩
  rw [List.pairwise_append]
  refine ⟨hs.heap.lsep, ?_, ?_⟩
  · have hp := (separated_iff_pairwise _).1 hs.heap.sep
    refine List.Pairwise.imp ?_ hp
    intro a b hab hov
    unfold overlaps at hov
    omega
  · intro a ha b hb hov
    obtain ⟨x, hx1, hx2⟩ := (overlaps_iff_common_byte _ _).1 hov
    exact hs.heap.apart x ((covers_iff_exists _ _).2 ⟨a, ha, hx1⟩)
      ((covers_iff_exists _ _).2 ⟨b, hb, hx2⟩)

/-- Witness for C17: after the run the live blocks are `(8192, 58)` and
`(16384, 4008)`, the free blocks `(8250, 4038)` and `(20392, 88)`. -/
theorem heap_partition_witness :
    ∃ st2 live2, runOps ⟨[], fun _ => 0, []⟩ []
        [Op.malloc 100 (some 8192), Op.malloc 200 none, Op.free 8200,
          Op.malloc 4000 (some 16384), Op.free 8308, Op.malloc 5000 (some 65536),
          Op.free 65544, Op.malloc 50 none] = some (st2, live2) ∧
      live2.map (blockOf st2) ++ st2.free_list
        = [⟨8192, 58⟩, ⟨16384, 4008⟩, ⟨8250, 4038⟩, ⟨20392, 88⟩] ∧
      List.Pairwise (fun a b => ¬ overlaps a b) (live2.map (blockOf st2) ++ st2.free_list) :=
  ⟨_, _, rfl, rfl, (heap_partition (fun _ => 0)
    [Op.malloc 100 (some 8192), Op.malloc 200 none, Op.free 8200,
      Op.malloc 4000 (some 16384), Op.free 8308, Op.malloc 5000 (some 65536),
      Op.free 65544, Op.malloc 50 none] _ _ rfl (by decide)).1⟩

/-- C18: allocate-then-release round trip on a free-list hit.  For every free list
(of blocks inside the address space) that is strictly address-sorted with no
adjacent and no overlapping pair, and every request whose effective size is below
`PAGE_SIZE`, for which `findFreeSize` finds a fit and the block handed out records a
size below `PAGE_SIZE`: `p = mymalloc(s)` followed by `myfree(p)` leaves the free
list with exactly the blocks it had, in the same order. -/
theorem mymalloc_myfree_round_trip (st : Heap) (s : Nat) (fresh : Option Nat) (p : Nat)
    (st1 : Heap) (hsep : separated st.free_list) (hsp : ∀ b ∈ st.free_list, inSpace b)
    (he : effSize s < PAGE_SIZE)
    (hfit : ∃ b fl, findFreeSize st.free_list (effSize s) = (some b, fl))
    (h : mymalloc st s fresh = Outcome.ok (p, st1))
    (hrec : (blockOf st1 p).size < PAGE_SIZE) :
    (myfree st1 p).free_list = st.free_list := by
  obtain ⟨b0, fl0, hf0⟩ := hfit
  have he16 := effSize_ge s
  rw [PAGE_SIZE_eq] at he
  rcases mymalloc_cases h with ⟨_, b, fl, hf, hc⟩ | ⟨_, hf, _⟩ | ⟨he2, _⟩
  · obtain ⟨pre, post, hpre, hfl, hbs⟩ := findFreeSize_some hf
    have hbsp := hsp b (by rw [hpre]; simp)
    rw [hpre] at hsep
    obtain ⟨hbefore, hafter⟩ := separated_around hsep
    have hprec : ∀ c ∈ pre, inSpace c := fun c hc => hsp c (by rw [hpre]; simp [hc])
    obtain ⟨a, n⟩ := b
    unfold inSpace at hbsp
    simp only at hbsp hbs hbefore hafter
    have hfinal : ∀ m, m ≤ n → 0 < m →
        (∀ x ∈ pre, x.addr < (⟨a, m⟩ : free_list_elm).addr ∧ inSpace x) := by
      intro m _ _ x hx
      have := hbefore x hx
      exact ⟨by simp only; omega, hprec x hx⟩
    rcases carve_cases { st with free_list := fl } a n (effSize s) hbsp hbs he16 (by omega)
      with ⟨h16, hcv⟩ | hcv
    · rw [hcv] at hc
      have hp : p = a + 8 := congrArg Prod.fst hc
      have hst : st1 = _ := congrArg Prod.snd hc
      have hblk : blockOf st1 p = ⟨a, effSize s⟩ := by
        unfold blockOf
        rw [hp, show (a + 8 + 2 ^ 64 - 8) % 2 ^ 64 = a by omega, hst]
        simp only
        rw [load64_store64 _ _ _ (by omega)]
      rw [myfree_small (by omega) hrec, hblk, hst]
      simp only
      rw [hfl, hpre]
      have hstep1 : addFreeList (pre ++ post) ⟨a + effSize s, n - effSize s⟩
          = pre ++ ⟨a + effSize s, n - effSize s⟩ :: post := by
        apply addFreeList_skip _ _ _ _
          (addFreeList_before (by unfold inSpace; simp only; omega)
            (fun d hd => by have := hafter d hd; simp only; omega))
        · intro x hx
          have := hbefore x hx
          exact ⟨by simp only; omega, hprec x hx⟩
        · exact separated_replace hsep (by simp only; omega) (by simp only; omega)
      rw [hstep1]
      have hfront : addFreeList (⟨a + effSize s, n - effSize s⟩ :: post) ⟨a, effSize s⟩
          = ⟨a, n⟩ :: post := by
        rw [addFreeList_front (by simp only; omega), if_pos (by simp only; omega)]
        simp only
        rw [show (effSize s + (n - effSize s)) % 2 ^ 64 = n by omega]
      exact addFreeList_skip _ _ _ _ hfront pre (hfinal (effSize s) hbs (by omega)) hsep
    · rw [hcv] at hc
      have hp : p = a + 8 := congrArg Prod.fst hc
      have hst : st1 = _ := congrArg Prod.snd hc
      have hblk : blockOf st1 p = ⟨a, n⟩ := by
        unfold blockOf
        rw [hp, show (a + 8 + 2 ^ 64 - 8) % 2 ^ 64 = a by omega, hst]
        simp only
        rw [load64_store64 _ _ _ (by omega)]
      rw [myfree_small (by omega) hrec, hblk, hst]
      simp only
      rw [hfl, hpre]
      exact addFreeList_skip _ _ _ _
        (addFreeList_before (by unfold inSpace; simp only; omega) hafter) pre
        (hfinal n (Nat.le_refl _) (by omega)) hsep
  · rw [hf0] at hf
    cases (congrArg Prod.fst hf)
  · rw [PAGE_SIZE_eq] at he2
    omega

/-- Witness for C18: the request of 100 bytes takes 108 bytes of the block
`(8192, 512)`; the release merges them with the residual `(8300, 404)`. -/
theorem mymalloc_myfree_round_trip_witness :
    mymalloc ⟨[⟨4096, 32⟩, ⟨8192, 512⟩, ⟨12288, 64⟩], fun _ => 0, []⟩ 100 none
      = Outcome.ok (8200,
          ⟨[⟨4096, 32⟩, ⟨8300, 404⟩, ⟨12288, 64⟩], store64 (fun _ => 0) 8192 108, []⟩) ∧
    (myfree ⟨[⟨4096, 32⟩, ⟨8300, 404⟩, ⟨12288, 64⟩], store64 (fun _ => 0) 8192 108, []⟩
      8200).free_list = [⟨4096, 32⟩, ⟨8192, 512⟩, ⟨12288, 64⟩] :=
  ⟨rfl, mymalloc_myfree_round_trip
    ⟨[⟨4096, 32⟩, ⟨8192, 512⟩, ⟨12288, 64⟩], fun _ => 0, []⟩ 100 none 8200
    ⟨[⟨4096, 32⟩, ⟨8300, 404⟩, ⟨12288, 64⟩], store64 (fun _ => 0) 8192 108, []⟩
    (by decide) (by decide) (by decide) ⟨_, _, rfl⟩ rfl (by decide)⟩

/-- C19: insertion conserves free memory.  For every free list (of blocks inside the
address space) that is strictly address-sorted with no adjacent and no overlapping
pair, and every block `toAdd` that overlaps no block of the list, a byte is covered
by `addFreeList list toAdd` exactly when it is covered by the list or lies in
`[toAdd, toAdd + toAdd.size)`, and the sizes of the result sum to those of the list
plus `toAdd.size`. -/
theorem addFreeList_conserves_free_memory (fl : List free_list_elm) (toAdd : free_list_elm)
    (hsep : separated fl) (hsp : ∀ b ∈ fl, inSpace b) (hts : inSpace toAdd)
    (hno : ∀ b ∈ fl, ¬ overlaps toAdd b) :
    (∀ x, covers (addFreeList fl toAdd) x ↔ (covers fl x ∨ inBlock x toAdd)) ∧
    sumSizes (addFreeList fl toAdd) = sumSizes fl + toAdd.size := by
  obtain ⟨hc, hs, _⟩ := addFreeList_conserves toAdd hts fl hsep hsp hno
  exact ⟨fun x => (hc x).trans or_comm, hs⟩

/-- Witness for C19: a block that fills the gap between two blocks; the three blocks
become one of 64 bytes. -/
theorem addFreeList_conserves_free_memory_witness :
    (∀ x, covers (addFreeList [⟨4096, 16⟩, ⟨4144, 16⟩] ⟨4112, 32⟩) x
      ↔ (covers [⟨4096, 16⟩, ⟨4144, 16⟩] x ∨ inBlock x ⟨4112, 32⟩)) ∧
    sumSizes (addFreeList [⟨4096, 16⟩, ⟨4144, 16⟩] ⟨4112, 32⟩)
      = sumSizes [⟨4096, 16⟩, ⟨4144, 16⟩] + 32 :=
  addFreeList_conserves_free_memory [⟨4096, 16⟩, ⟨4144, 16⟩] ⟨4112, 32⟩
    (by decide) (by decide) (by decide) (by decide)

/-- C20: `divide` computes the ceiling of the quotient.  For every `x` and every
`y > 0`, `divide x y = (x + y - 1) / y`, `divide x y * y ≥ x`, when `x > 0` then
`(divide x y - 1) * y < x`, and `divide x y = x / y` exactly when `y` divides `x`. -/
theorem divide_ceiling (x y : Nat) (hy : 0 < y) :
    divide x y = (x + y - 1) / y ∧ x ≤ divide x y * y ∧
    (0 < x → (divide x y - 1) * y < x) ∧ (divide x y = x / y ↔ y ∣ x) := by
  have hdm : y * (x / y) + x % y = x := Nat.div_add_mod x y
  have hml : x % y < y := Nat.mod_lt x hy
  have hcomm : x / y * y = y * (x / y) := Nat.mul_comm _ _
  unfold divide
  simp only
  by_cases hz : x / y * y = x
  · rw [if_pos hz]
    have hm0 : x % y = 0 := by omega
    refine ⟨?_, by omega, ?_, ?_⟩
    · have h1 : x + y - 1 = (y - 1) + y * (x / y) := by omega
      have h2 : (y - 1) / y = 0 := Nat.div_eq_of_lt (by omega)
      rw [h1, Nat.add_mul_div_left _ _ hy, h2]
      omega
    · intro hx
      have hq : 0 < x / y := by
        rcases Nat.eq_zero_or_pos (x / y) with h0 | h0
        · rw [h0] at hz
          omega
        · exact h0
      have h2 : (x / y - 1) * y + y = x / y * y := by
        rw [← Nat.succ_mul]
        congr 1
        omega
      omega
    · exact ⟨fun _ => Nat.dvd_of_mod_eq_zero hm0, fun _ => rfl⟩
  · rw [if_neg hz]
    have hm1 : 0 < x % y := by omega
    refine ⟨?_, ?_, ?_, ?_⟩
    · have h1 : x + y - 1 = (x % y - 1) + y * (x / y + 1) := by
        rw [Nat.mul_add, Nat.mul_one]
        omega
      have h2 : (x % y - 1) / y = 0 := Nat.div_eq_of_lt (by omega)
      rw [h1, Nat.add_mul_div_left _ _ hy, h2]
      omega
    · rw [Nat.add_mul, Nat.one_mul]
      omega
    · intro _
      simp only [Nat.add_sub_cancel]
      omega
    · constructor
      · intro h
        omega
      · intro hd
        have := Nat.mod_eq_zero_of_dvd hd
        omega

/-- Witness for C20: `divide(5008, 4096) = 2`. -/
theorem divide_ceiling_witness :
    divide 5008 4096 = (5008 + 4096 - 1) / 4096 ∧ 5008 ≤ divide 5008 4096 * 4096 ∧
    (0 < 5008 → (divide 5008 4096 - 1) * 4096 < 5008) ∧
    (divide 5008 4096 = 5008 / 4096 ↔ 4096 ∣ 5008) :=
  divide_ceiling 5008 4096 (by decide)

end MyMalloc
